import Mathlib

/-!
# A verification model of the mapbox style expression core

This file gives a shallow embedding of the style-spec expression subsystem:
the value and type model, the recursive parser (`parseExpression` and the
built-in `literal` and `match` operators), the array-literal type inference,
the generic type-checking pass, the serializer, and the `match` operator's
compile-time dispatch-table semantics.  Definitions follow the JavaScript
source files `expression.js` and `definitions/match.js` (plus the duplicate
drafts of `expression.js`); pieces of the repository that are only referenced
by those files (`types.js`, `values.js`, the typecheck pass) are modelled from
the specification and marked as such in their doc comments.

Embedding conventions: JavaScript numbers are modelled as `Int` (no claim in
scope exercises non-integral or IEEE behavior); `undefined` is not
representable in the JSON-like source values; parser recursion is bounded by
an explicit fuel argument that strictly dominates the recursion depth (a pure
embedding artifact; every theorem quantifies over the fuel or evaluates at a
concrete one).
-/

namespace StyleExpr

/-- Runtime values, following the `Value` flow type of `expression.js` /
`values.js`: `null | string | boolean | number | Color | {[string]: Value} |
Array<Value>`.  The same inductive also serves as the JSON-like raw source
form fed to the parser (a raw source tree simply never contains `vcolor`). -/
inductive Value where
  | vnull
  | vbool (b : Bool)
  | vnum (n : Int)
  | vstr (s : String)
  | varr (items : List Value)
  | vobj (fields : List (String × Value))
  | vcolor (r g b a : Int)

/-- JavaScript's `typeof` operator restricted to the value model.  Note that
`typeof null`, `typeof` of an array and `typeof` of a `Color` instance are all
`"object"` in JavaScript. -/
def jsTypeof : Value → String
  | .vnull => "object"
  | .vbool _ => "boolean"
  | .vnum _ => "number"
  | .vstr _ => "string"
  | .varr _ => "object"
  | .vobj _ => "object"
  | .vcolor _ _ _ _ => "object"

/-- Static types.  Modelled from the spec: `types.js` is not under src/; §3
gives the closed variant set `Null, String, Number, Boolean, Object, Color,
Value, Array(itemType, optionalFixedLength), Lambda(params, result),
TypeVariable(name), NArgs(count, repeatedTypes, ...)`.  The `lambda`
constructor takes the result first, matching the call
`lambda(typename('T'), ...)` in `match.js`; `tnargs` with `count = none`
is `nargs(Infinity, ...)`. -/
inductive Ty where
  | tnull
  | tstring
  | tnumber
  | tboolean
  | tobject
  | tcolor
  | tvalue
  | tarray (item : Ty) (n : Option Nat)
  | tvar (name : String)
  | tlambda (result : Ty) (params : List Ty)
  | tnargs (count : Option Nat) (types : List Ty)

mutual

/-- Boolean equality on types (decidable equality is derived from it below;
the stock deriving handler does not support this nested inductive). -/
def Ty.beq : Ty → Ty → Bool
  | .tnull, .tnull => true
  | .tstring, .tstring => true
  | .tnumber, .tnumber => true
  | .tboolean, .tboolean => true
  | .tobject, .tobject => true
  | .tcolor, .tcolor => true
  | .tvalue, .tvalue => true
  | .tarray i n, .tarray i' n' => Ty.beq i i' && n == n'
  | .tvar a, .tvar b => a == b
  | .tlambda r ps, .tlambda r' ps' => Ty.beq r r' && Ty.beqList ps ps'
  | .tnargs c ts, .tnargs c' ts' => c == c' && Ty.beqList ts ts'
  | _, _ => false

/-- Boolean equality on lists of types. -/
def Ty.beqList : List Ty → List Ty → Bool
  | [], [] => true
  | t :: ts, u :: us => Ty.beq t u && Ty.beqList ts us
  | _, _ => false

end

mutual

theorem Ty.eq_of_beq : (a b : Ty) → Ty.beq a b = true → a = b
  | .tnull, .tnull, _ => rfl
  | .tstring, .tstring, _ => rfl
  | .tnumber, .tnumber, _ => rfl
  | .tboolean, .tboolean, _ => rfl
  | .tobject, .tobject, _ => rfl
  | .tcolor, .tcolor, _ => rfl
  | .tvalue, .tvalue, _ => rfl
  | .tarray i n, .tarray i' n', h => by
      simp only [Ty.beq, Bool.and_eq_true, beq_iff_eq] at h
      rw [Ty.eq_of_beq i i' h.1, h.2]
  | .tvar a, .tvar b, h => by
      simp only [Ty.beq, beq_iff_eq] at h
      rw [h]
  | .tlambda r ps, .tlambda r' ps', h => by
      simp only [Ty.beq, Bool.and_eq_true] at h
      rw [Ty.eq_of_beq r r' h.1, Ty.eqList_of_beqList ps ps' h.2]
  | .tnargs c ts, .tnargs c' ts', h => by
      simp only [Ty.beq, Bool.and_eq_true, beq_iff_eq] at h
      rw [h.1, Ty.eqList_of_beqList ts ts' h.2]

theorem Ty.eqList_of_beqList : (xs ys : List Ty) → Ty.beqList xs ys = true → xs = ys
  | [], [], _ => rfl
  | t :: ts, u :: us, h => by
      simp only [Ty.beqList, Bool.and_eq_true] at h
      rw [Ty.eq_of_beq t u h.1, Ty.eqList_of_beqList ts us h.2]

end

mutual

theorem Ty.beq_refl : (a : Ty) → Ty.beq a a = true
  | .tnull => rfl
  | .tstring => rfl
  | .tnumber => rfl
  | .tboolean => rfl
  | .tobject => rfl
  | .tcolor => rfl
  | .tvalue => rfl
  | .tarray i n => by simp [Ty.beq, Ty.beq_refl i]
  | .tvar a => by simp [Ty.beq]
  | .tlambda r ps => by simp [Ty.beq, Ty.beq_refl r, Ty.beqList_refl ps]
  | .tnargs c ts => by simp [Ty.beq, Ty.beqList_refl ts]

theorem Ty.beqList_refl : (xs : List Ty) → Ty.beqList xs xs = true
  | [] => rfl
  | t :: ts => by simp [Ty.beqList, Ty.beq_refl t, Ty.beqList_refl ts]

end

instance : DecidableEq Ty := fun a b =>
  decidable_of_iff (Ty.beq a b = true)
    ⟨Ty.eq_of_beq a b, fun h => h ▸ Ty.beq_refl a⟩

/-- `primitiveTypes[typeof item]` from the duplicate `expression.js` drafts:
defined exactly for string, number and boolean (in particular `typeof null`
is `"object"`, so `null` is not primitive here). -/
def primitiveTypeOf : Value → Option Ty
  | .vstr _ => some .tstring
  | .vnum _ => some .tnumber
  | .vbool _ => some .tboolean
  | _ => none

/-- The item-type scan loop of `inferArrayType` (src/unnamed/part_001, both
drafts): start with no item type; a first primitive item fixes it; an equal
primitive item continues; anything else degrades to `Value` and breaks. -/
def inferItemType : Option Ty → List Value → Option Ty
  | itemType, [] => itemType
  | itemType, item :: rest =>
    match primitiveTypeOf item, itemType with
    | some t, none => inferItemType (some t) rest
    | some t, some u => if t = u then inferItemType (some u) rest else some .tvalue
    | none, _ => some .tvalue

/-- `ArrayLiteral.inferArrayType` / `LiteralExpression.inferArrayType`
(src/unnamed/part_001): infer the item type by the scan loop, then return
`array(itemType || ValueType, value.length)` — the scanned length is passed
unconditionally. -/
def inferArrayType (value : List Value) : Ty :=
  .tarray ((inferItemType none value).getD .tvalue) (some value.length)

/-- Modelled from the spec: `typeOf` from `values.js` is not under src/.
§3/§4.2: primitive scalars map to their primitive types, `Color` to the Color
type, objects to Object; array values get the inferred array type, for which
the in-source `inferArrayType` is used (as in the `LiteralExpression.parse`
draft of part_001). -/
def typeOf : Value → Ty
  | .vnull => .tnull
  | .vbool _ => .tboolean
  | .vnum _ => .tnumber
  | .vstr _ => .tstring
  | .varr items => inferArrayType items
  | .vobj _ => .tobject
  | .vcolor _ _ _ _ => .tcolor

/-- The AST of `expression.js`: a node is a `LiteralExpression`
(`key`, `type`, `value`) or a `LambdaExpression` (`key`, operator name from
`getName()`, `type`, ordered child nodes).  The operator name replaces the
class identity of the JavaScript code. -/
inductive Expr where
  | lit (key : String) (type : Ty) (value : Value)
  | lam (key : String) (op : String) (type : Ty) (args : List Expr)

/-- The `type` field of a node. -/
def Expr.type : Expr → Ty
  | .lit _ t _ => t
  | .lam _ _ t _ => t

/-- The `args` field of a node (empty for literals). -/
def Expr.args : Expr → List Expr
  | .lit _ _ _ => []
  | .lam _ _ _ as_ => as_

/-- `ParsingError` of `expression.js`: a located message. -/
structure ParsingError where
  key : String
  message : String

/-- `ParsingContext` of `expression.js`, minus the operator registry (which
the embedding passes alongside): the current path and the operator-name
ancestry. -/
structure Ctx where
  path : List Nat
  ancestors : List String

/-- `this.key = path.join('.')`. -/
def Ctx.key (c : Ctx) : String :=
  String.intercalate "." (c.path.map toString)

/-- `ParsingContext.concat(index, expressionName?)`. -/
def Ctx.concat (c : Ctx) (index : Nat) (expressionName : Option String) : Ctx :=
  ⟨c.path ++ [index],
   match expressionName with
   | some n => c.ancestors ++ [n]
   | none => c.ancestors⟩

/-- How an operator class parses: with the inherited default
`LambdaExpression.parse` (carrying the `getType()` signature), or with the
overriding `MatchExpression.parse`. -/
inductive OpKind where
  | defaultK (sig : Ty)
  | matchK

/-- A registry entry: the class's `getName()` plus its parse behavior. -/
structure OpDef where
  name : String
  kind : OpKind

/-- `context.definitions[op]` lookup. -/
def lookupDef : List (String × OpDef) → String → Option OpDef
  | [], _ => none
  | (k, d) :: rest, op => if k = op then some d else lookupDef rest op

/-- `MatchExpression.getType()` (match.js line 26):
`lambda(typename('T'), typename('U'),
        nargs(Infinity, array(typename('U')), typename('T')),
        typename('T'))`. -/
def matchSig : Ty :=
  .tlambda (.tvar "T")
    [.tvar "U",
     .tnargs none [.tarray (.tvar "U") none, .tvar "T"],
     .tvar "T"]

/-- `LiteralExpression.parse` (expression.js): exactly one argument required;
`isValue` holds for every tree of the value model, so the `invalid value`
branch is unreachable in the embedding; the node's type is `typeOf(value)`. -/
def litParse (args : List Value) (ctx : Ctx) : Except ParsingError Expr :=
  match args with
  | [a] => .ok (.lit ctx.key (typeOf a) a)
  | _ =>
    .error ⟨ctx.key,
      "\x27literal\x27 expression requires exactly one argument, but found "
        ++ toString args.length ++ " instead."⟩

/-- The match-input normalization `Array.isArray(arg) ? arg : [arg]`
(match.js line 41). -/
def toGroup : Value → List Value
  | .varr ys => ys
  | a => [a]

/-- The inner validation loop over a normalized label group (match.js lines
44–52): any element with JavaScript `typeof` equal to `"object"` (which
includes `null`, arrays and objects) is rejected with an error located at
`<key>.<i+1>.<j>`. -/
def checkGroup (key : String) (i : Nat) : Nat → List Value → Except ParsingError Unit
  | _, [] => .ok ()
  | j, v :: vs =>
    if jsTypeof v = "object" then
      .error ⟨key ++ "." ++ toString (i + 1) ++ "." ++ toString j,
        "Match inputs must be literal primitive values or arrays of literal primitive values."⟩
    else checkGroup key i (j + 1) vs

/-- A label-set argument that passes the validation of
`MatchExpression.parse`: its normalized group is nonempty and contains no
value that JavaScript `typeof` classifies as `"object"`. -/
def okLabel (a : Value) : Bool :=
  !(toGroup a).isEmpty && (toGroup a).all (fun v => !(jsTypeof v == "object"))

/-- The input/output normalization loop of `MatchExpression.parse` (match.js
lines 35–57) over `args[1] .. args[args.length - 2]`, with `i` the index into
`args`: label positions (odd `i`) are wrapped as `['literal', inputGroup]`
after validation; output positions are passed through. -/
def normalizeMid (key : String) : Nat → List Value → Except ParsingError (List Value)
  | _, [] => .ok []
  | i, a :: rest =>
    if i % 2 = 1 then
      let g := toGroup a
      if g.length = 0 then
        .error ⟨key ++ "." ++ toString (i + 1), "Expected at least one input value."⟩
      else do
        checkGroup key i 0 g
        let rest' ← normalizeMid key (i + 1) rest
        .ok (.varr [.vstr "literal", .varr g] :: rest')
    else do
      let rest' ← normalizeMid key (i + 1) rest
      .ok (a :: rest')

/-- The argument loop of the default `LambdaExpression.parse`: parse each raw
argument at `context.concat(1 + parsedArgs.length, op)`.  The recursive
parser is passed in as `p`. -/
def parseArgsF (p : Value → Ctx → Except ParsingError Expr) (op : String) (ctx : Ctx) :
    Nat → List Value → Except ParsingError (List Expr)
  | _, [] => .ok []
  | idx, a :: rest => do
    let e ← p a (ctx.concat idx (some op))
    let es ← parseArgsF p op ctx (idx + 1) rest
    .ok (e :: es)

/-- `MatchExpression.parse` (match.js lines 28–62): the arity guard counts
all raw arguments including the input; the middle arguments are normalized by
`normalizeMid`; the final argument is appended unchanged; the result is
handed to the default parse (`super.parse`), which builds a node carrying
`getName() = "match"` and `getType() = matchSig`. -/
def matchParseF (p : Value → Ctx → Except ParsingError Expr) (args : List Value)
    (ctx : Ctx) : Except ParsingError Expr :=
  match args with
  | a0 :: b :: rest => do
    let mid := (b :: rest).dropLast
    let nm ← normalizeMid ctx.key 1 mid
    let normalizedArgs := a0 :: (nm ++ [(b :: rest).getLast (by simp)])
    let parsedArgs ← parseArgsF p "match" ctx 1 normalizedArgs
    .ok (.lam ctx.key "match" matchSig parsedArgs)
  | short =>
    .error ⟨ctx.key,
      "Expected at least 2 arguments, but found only " ++ toString short.length ++ "."⟩

/-- `parseExpression` (expression.js lines 143–181), with an explicit fuel
bound on the recursion depth (an embedding artifact: the `.error` at fuel 0
is reachable on no input whose size is at most the initial fuel, and every
theorem below either quantifies over the fuel or evaluates it concretely). -/
def parseFuel (defs : List (String × OpDef)) : Nat → Value → Ctx → Except ParsingError Expr
  | 0, _, ctx => .error ⟨ctx.key, "recursion limit exceeded"⟩
  | fuel + 1, expr, ctx =>
    match expr with
    | .vnull => .ok (.lit ctx.key .tnull .vnull)
    | .vstr s => .ok (.lit ctx.key .tstring (.vstr s))
    | .vbool b => .ok (.lit ctx.key .tboolean (.vbool b))
    | .vnum n => .ok (.lit ctx.key .tnumber (.vnum n))
    | .varr xs =>
      match xs with
      | [] =>
        .error ⟨ctx.key,
          "Expected an array with at least one element. If you wanted a literal array, use [\"literal\", []]."⟩
      | op :: rest =>
        match op with
        | .vstr opName =>
          if opName = "literal" then litParse rest ctx
          else
            match lookupDef defs opName with
            | none =>
              .error ⟨ctx.key ++ ".0",
                "Unknown expression \"" ++ opName
                  ++ "\". If you wanted a literal array, use [\"literal\", [...]]."⟩
            | some d =>
              match d.kind with
              | .defaultK sig => do
                let parsedArgs ← parseArgsF (parseFuel defs fuel) d.name ctx 1 rest
                .ok (.lam ctx.key d.name sig parsedArgs)
              | .matchK => matchParseF (parseFuel defs fuel) rest ctx
        | _ =>
          .error ⟨ctx.key ++ ".0",
            "Expression name must be a string, but found " ++ jsTypeof op
              ++ " instead. If you wanted a literal array, use [\"literal\", [...]]."⟩
    | .vobj _ =>
      .error ⟨ctx.key, "Bare objects invalid. Use [\"literal\", \x7b...\x7d] instead."⟩
    | .vcolor _ _ _ _ =>
      .error ⟨ctx.key, "Bare objects invalid. Use [\"literal\", \x7b...\x7d] instead."⟩

mutual

/-- Enough fuel for any value: one unit per constructor. -/
def fuelFor : Value → Nat
  | .vnull => 1
  | .vbool _ => 1
  | .vnum _ => 1
  | .vstr _ => 1
  | .varr items => 1 + fuelForList items
  | .vobj fields => 1 + fuelForFields fields
  | .vcolor _ _ _ _ => 1

/-- Fuel for a list of values. -/
def fuelForList : List Value → Nat
  | [] => 0
  | x :: xs => fuelFor x + fuelForList xs

/-- Fuel for object fields. -/
def fuelForFields : List (String × Value) → Nat
  | [] => 0
  | (_, x) :: xs => fuelFor x + fuelForFields xs

end

/-- The entry-point wrapper: `parseExpression(expr, context)` with
sufficient fuel. -/
def parseExpression (defs : List (String × OpDef)) (expr : Value) (ctx : Ctx) :
    Except ParsingError Expr :=
  parseFuel defs (fuelFor expr) expr ctx

/-- The top-level parsing context: empty path, empty ancestry. -/
def ctx0 : Ctx := ⟨[], []⟩

/-- The registry used by concrete examples: the built-in `match` operator
(`literal` is handled by the parser itself, before registry lookup). -/
def defsM : List (String × OpDef) := [("match", ⟨"match", .matchK⟩)]

/-! ## Serialization -/

/-- `LiteralExpression.serialize` (expression.js lines 97–105): primitive
scalars and `null` serialize to themselves, a `Color` value to
`["rgba"].concat(value)`, and any other value to `["literal", value]`. -/
def serializeLit : Value → Value
  | .vnull => .vnull
  | .vstr s => .vstr s
  | .vbool b => .vbool b
  | .vnum n => .vnum n
  | .vcolor r g b a => .varr [.vstr "rgba", .vnum r, .vnum g, .vnum b, .vnum a]
  | v => .varr [.vstr "literal", v]

/-- Modelled from the spec: the `name` field of a type descriptor lives in
`types.js`, which is not under src/; §3 names the variants and §4.6 only ever
reads the name of a result type under `withTypes`. -/
def typeName : Ty → String
  | .tnull => "Null"
  | .tstring => "String"
  | .tnumber => "Number"
  | .tboolean => "Boolean"
  | .tobject => "Object"
  | .tcolor => "Color"
  | .tvalue => "Value"
  | .tarray t none => "array<" ++ typeName t ++ ">"
  | .tarray t (some n) => "array<" ++ typeName t ++ ", " ++ toString n ++ ">"
  | .tvar n => n
  | .tlambda _ _ => "lambda"
  | .tnargs _ _ => "nargs"

/-- `this.type.kind === 'lambda' ? this.type.result.name : this.type.name`
(expression.js line 122). -/
def resultTypeName : Ty → String
  | .tlambda r _ => typeName r
  | t => typeName t

mutual

/-- `serialize(withTypes)` over the AST: a literal serializes its value by
`serializeLit`; a lambda node emits `[name (+ ": " + resultTypeName)]`
followed by its serialized children (expression.js lines 120–125). -/
def serialize (withTypes : Bool) : Expr → Value
  | .lit _ _ v => serializeLit v
  | .lam _ op t args =>
    .varr (.vstr (op ++ (if withTypes then ": " ++ resultTypeName t else ""))
      :: serializeList withTypes args)

/-- Serialization of a list of child nodes, in order. -/
def serializeList (withTypes : Bool) : List Expr → List Value
  | [] => []
  | e :: es => serialize withTypes e :: serializeList withTypes es

end

/-- Normal forms of a list of operator arguments, with `f` normalizing each
element. -/
def normListG (f : Value → Value) : List Value → List Value
  | [] => []
  | a :: rest => f a :: normListG f rest

/-- Normal forms of the trailing `match` arguments (everything after the
input): position `i` counts as in `MatchExpression.parse`; the last element
is the fallback (normalized like any argument by `f`), odd positions before
it are label sets (wrapped), even positions are outputs (normalized by
`f`). -/
def normMidG (f : Value → Value) : Nat → List Value → List Value
  | _, [] => []
  | _, [a] => [f a]
  | i, a :: b :: rest =>
    (if i % 2 = 1 then .varr [.vstr "literal", .varr (toGroup a)] else f a)
      :: normMidG f (i + 1) (b :: rest)

/-- The source-level normal form that `serialize false ∘ parse` computes
(stated and proved as `claim_c5` below), with the same explicit recursion
fuel as `parseFuel`: a `["literal", v]` wrapper is replaced by
`serializeLit v` (so a wrapped primitive scalar becomes the bare scalar),
every `match` label set is replaced by its normalized `["literal",
[labels]]` form, and everything else is rebuilt recursively. -/
def normFuel (defs : List (String × OpDef)) : Nat → Value → Value
  | 0, v => v
  | n + 1, v =>
    match v with
    | .varr xs =>
      match xs with
      | [] => .varr xs
      | op :: rest =>
        match op with
        | .vstr opName =>
          if opName = "literal" then
            match rest with
            | [a] => serializeLit a
            | _ => .varr xs
          else
            match lookupDef defs opName with
            | some d =>
              match d.kind with
              | .defaultK _ => .varr (.vstr opName :: normListG (normFuel defs n) rest)
              | .matchK =>
                match rest with
                | a0 :: b :: rest' =>
                  .varr (.vstr "match" :: normFuel defs n a0
                    :: normMidG (normFuel defs n) 1 (b :: rest'))
                | _ => .varr xs
            | none => .varr xs
        | _ => .varr xs
    | v => v

/-- The normal form at the canonical fuel, mirroring `parseExpression`. -/
def normExpr (defs : List (String × OpDef)) (v : Value) : Value :=
  normFuel defs (fuelFor v) v

/-! ## The generic type-checking pass

The typecheck pass applied after parsing is code of this repository that is
not under src/ (only `applyType` and the declared signatures appear there).
It is modelled from the spec, §3 and §4.3: a binding environment maps type
variable names to the concrete type fixed by their first occurrence;
subsequent occurrences must match the bound type exactly (no subtype
conversion is modelled); a fixed-arity `Lambda` signature demands an exact
argument count and position-wise unification; an `NArgs` fragment demands at
least one repetition of its repeated sequence before the trailing
parameters. -/

/-- Type-check errors, following the spec's §7 taxonomy for the
arity/type-mismatch part of the pass. -/
inductive TcError where
  | arity (expected found : Nat)
  | variadicArity (minimum found : Nat)
  | mismatch (position : Nat) (expected actual : Ty)
  | notLambda

/-- Binding-environment lookup. -/
def envFind : List (String × Ty) → String → Option Ty
  | [], _ => none
  | (k, t) :: rest, n => if k = n then some t else envFind rest n

/-- Modelled from the spec: one unification step of a declared parameter
type against an argument's resolved type under the binding environment
(first-occurrence binding per §3).  A declared `array` with no fixed length
accepts any length; all other structure must match exactly. -/
def unify (env : List (String × Ty)) : Ty → Ty → Option (List (String × Ty))
  | .tvar n, actual =>
    match envFind env n with
    | some t => if t = actual then some env else none
    | none => some ((n, actual) :: env)
  | .tarray it nd, actual =>
    match actual with
    | .tarray ia na => if nd = none ∨ nd = na then unify env it ia else none
    | _ => if Ty.tarray it nd = actual then some env else none
  | d, actual => if d = actual then some env else none

mutual

/-- Substitute the bound type variables of the environment into a type. -/
def applySubst (env : List (String × Ty)) : Ty → Ty
  | .tvar n => (envFind env n).getD (.tvar n)
  | .tarray it n => .tarray (applySubst env it) n
  | .tlambda r ps => .tlambda (applySubst env r) (applySubstList env ps)
  | .tnargs c ts => .tnargs c (applySubstList env ts)
  | t => t

/-- Substitution over a list of types. -/
def applySubstList (env : List (String × Ty)) : List Ty → List Ty
  | [] => []
  | t :: ts => applySubst env t :: applySubstList env ts

end

/-- Sequentially unify declared-parameter/argument-type pairs, threading the
binding environment; the first failing position yields a type-mismatch
error reporting the (substituted) expected type and the actual type. -/
def bindAll : List (String × Ty) → Nat → List (Ty × Ty) → Except TcError (List (String × Ty))
  | env, _, [] => .ok env
  | env, pos, (p, a) :: rest =>
    match unify env p a with
    | some env' => bindAll env' (pos + 1) rest
    | none => .error (.mismatch pos (applySubst env p) a)

/-- Split a parameter list at its first `NArgs` fragment, if any. -/
def splitAtNargs : List Ty → Option (List Ty × Option Nat × List Ty × List Ty)
  | [] => none
  | .tnargs c seq :: rest => some ([], c, seq, rest)
  | p :: rest =>
    match splitAtNargs rest with
    | some (front, c, seq, tail) => some (p :: front, c, seq, tail)
    | none => none

/-- `k` parameter positions obtained by cycling the repeated sequence. -/
def cycleList (seq : List Ty) (k : Nat) : List Ty :=
  (List.range k).map (fun j => seq.getD (j % seq.length) .tvalue)

/-- Modelled from the spec (§4.3): check one operator application.  For a
fixed-arity `Lambda(params, result)` the argument count must equal
`params.length` exactly (else an arity error naming expected vs. found);
each argument type unifies with its declared parameter type under the shared
environment; the resolved type is `result` with the bound variables
substituted.  For a signature with an `NArgs(count, seq)` fragment there
must be at least one repetition of `seq` plus the trailing parameters, a
whole number of repetitions, and at most `count` of them. -/
def checkApplication (sig : Ty) (argTys : List Ty) : Except TcError Ty :=
  match sig with
  | .tlambda result params =>
    match splitAtNargs params with
    | none =>
      if argTys.length = params.length then
        (bindAll [] 0 (params.zip argTys)).map (fun env => applySubst env result)
      else .error (.arity params.length argTys.length)
    | some (front, count, seq, tail) =>
      let minArgs := front.length + seq.length + tail.length
      let k := argTys.length - (front.length + tail.length)
      let okCount : Bool := match count with
        | some c => k / seq.length ≤ c
        | none => true
      if argTys.length < minArgs || k % seq.length != 0 || !okCount then
        .error (.variadicArity minArgs argTys.length)
      else
        (bindAll [] 0 ((front ++ cycleList seq k ++ tail).zip argTys)).map
          (fun env => applySubst env result)
  | _ => .error .notLambda

mutual

/-- Modelled from the spec (§4.3/§3): the type-checking pass over a parsed
tree.  Literals keep their inferred types; for an operator node the children
are checked first (fail-fast, left to right), then the node's declared
signature is applied to the children's resolved types, and the node is
rebuilt — not mutated — with the resolved result type (`applyType`). -/
def typecheckExpr : Expr → Except TcError Expr
  | .lit k t v => .ok (.lit k t v)
  | .lam k op sig args =>
    match typecheckList args with
    | .error e => .error e
    | .ok args' =>
      match checkApplication sig (args'.map Expr.type) with
      | .error e => .error e
      | .ok rt => .ok (.lam k op rt args')

/-- Type-check a list of child nodes, left to right, fail-fast. -/
def typecheckList : List Expr → Except TcError (List Expr)
  | [] => .ok []
  | e :: es =>
    match typecheckExpr e with
    | .error er => .error er
    | .ok e' =>
      match typecheckList es with
      | .error er => .error er
      | .ok es' => .ok (e' :: es')

end

/-! ### Wellformedness and resolvedness predicates -/

mutual

/-- The type variables occurring in a type. -/
def tyVars : Ty → List String
  | .tvar n => [n]
  | .tarray it _ => tyVars it
  | .tlambda r ps => tyVars r ++ tyVarsList ps
  | .tnargs _ ts => tyVarsList ts
  | _ => []

/-- The type variables occurring in a list of types. -/
def tyVarsList : List Ty → List String
  | [] => []
  | t :: ts => tyVars t ++ tyVarsList ts

end

/-- A type with no lambda or n-args structure (a data type, possibly with
type variables). -/
def isPlain : Ty → Bool
  | .tlambda _ _ => false
  | .tnargs _ _ => false
  | .tarray it _ => isPlain it
  | _ => true

/-- A fully resolved (concrete) data type: plain and variable-free. -/
def isConcrete : Ty → Bool
  | .tvar _ => false
  | .tlambda _ _ => false
  | .tnargs _ _ => false
  | .tarray it _ => isConcrete it
  | _ => true

/-- A well-formed operator signature: a lambda whose result is a data type
and whose result variables all occur among the parameters (so that binding
the parameters resolves the result). -/
def sigWf : Ty → Bool
  | .tlambda result params =>
    isPlain result && (tyVars result).all (fun n => n ∈ tyVarsList params)
  | _ => false

/-- Every `defaultK` signature of the registry is well-formed. -/
def defsWfSigs : List (String × OpDef) → Bool
  | [] => true
  | (_, d) :: rest =>
    (match d.kind with
     | .defaultK sig => sigWf sig
     | .matchK => true) && defsWfSigs rest

/-- Every registry entry is keyed by its own `getName()` (a sane registry
registers each class under what its `getName()` returns). -/
def defsWfNames : List (String × OpDef) → Bool
  | [] => true
  | (k, d) :: rest => (d.name == k) && defsWfNames rest

mutual

/-- A well-formed tree: literal types are concrete and every operator node
carries a well-formed declared signature. -/
def wfExpr : Expr → Bool
  | .lit _ t _ => isConcrete t
  | .lam _ _ sig args => sigWf sig && wfExprList args

/-- Wellformedness of a list of nodes. -/
def wfExprList : List Expr → Bool
  | [] => true
  | e :: es => wfExpr e && wfExprList es

end

mutual

/-- A fully resolved tree: every node's stored type is concrete (in
particular no node stores a raw generic lambda signature). -/
def allResolved : Expr → Bool
  | .lit _ t _ => isConcrete t
  | .lam _ _ t args => isConcrete t && allResolvedList args

/-- Resolvedness of a list of nodes. -/
def allResolvedList : List Expr → Bool
  | [] => true
  | e :: es => allResolved e && allResolvedList es

end

/-! ## The match operator's compiled dispatch

`MatchExpression.compile` (match.js lines 64–103) emits a JavaScript
function; the definitions below embed that function's semantics.  An
evaluator is a function from the opaque per-record input to a value or a
runtime error; the generated `() => ...` output thunks become the evaluators
of the output expressions, invoked only at dispatch time. -/

/-- The opaque evaluation input record (conceptually feature properties plus
zoom; its shape is external to the core). -/
abbrev Feature := List (String × Value)

/-- The semantics of a compiled expression's `js` evaluator. -/
abbrev EvalFn := Feature → Except String Value

/-- What `MatchExpression.compile` reads off each compiled argument: the
argument's evaluator (its `js`), and — for label arguments — the
`LiteralExpression` value behind it (`args[i].expression.value`). -/
structure CompiledArg where
  ev : EvalFn
  litVal : Option Value

mutual

/-- JavaScript string coercion `String(value)`, as used both for the
dispatch-table keys and the `'-' + input` key derivation.  It is exact for
the primitive values that can actually reach a key (integral numbers,
strings, booleans); composite values are modelled on a best effort (their
composite keys carry a non-primitive type tag and therefore never hit the
table). -/
def valueToKeyString : Value → String
  | .vnull => "null"
  | .vbool b => if b then "true" else "false"
  | .vnum n => toString n
  | .vstr s => s
  | .varr xs => joinComma xs
  | .vobj _ => "[object Object]"
  | .vcolor _ _ _ _ => "[object Object]"

/-- JavaScript `Array.prototype.toString`: comma-joined element strings,
with `null` elements contributing the empty string. -/
def joinComma : List Value → String
  | [] => ""
  | [.vnull] => ""
  | [v] => valueToKeyString v
  | .vnull :: w :: rest => "," ++ joinComma (w :: rest)
  | v :: w :: rest => valueToKeyString v ++ "," ++ joinComma (w :: rest)

end

/-- Modelled from the spec: `this.typeOf(input).toLowerCase()` — the runtime
type tag of the evaluation-time input, lower-cased (§4.5).  For the
primitive kinds it coincides with JavaScript `typeof`; the remaining kinds
get their §3 type names lower-cased (none of which collides with a
primitive tag, so such inputs always miss the dispatch table). -/
def runtimeTypeTag : Value → String
  | .vnull => "null"
  | .vbool _ => "boolean"
  | .vnum _ => "number"
  | .vstr _ => "string"
  | .varr _ => "array"
  | .vobj _ => "object"
  | .vcolor _ _ _ _ => "color"

/-- A compile-time dispatch key: `` `${typeof value}-${String(value)}` ``
(match.js line 90). -/
def labelKey (v : Value) : String :=
  jsTypeof v ++ "-" ++ valueToKeyString v

/-- The evaluation-time composite key:
`this.typeOf(input).toLowerCase() + '-' + input` (match.js line 99). -/
def compositeKey (v : Value) : String :=
  runtimeTypeTag v ++ "-" ++ valueToKeyString v

/-- The argument-splitting loop of `compile` (match.js lines 68–75) over
`args[1] .. args[args.length - 2]`: odd positions must be literal label
arrays (the `assert`; `none` models an assertion failure), even positions
contribute their evaluators as output thunks. -/
def splitPairs : Nat → List CompiledArg → Option (List (List Value) × List EvalFn)
  | _, [] => some ([], [])
  | i, a :: rest =>
    match splitPairs (i + 1) rest with
    | none => none
    | some (ins, outs) =>
      if i % 2 = 1 then
        match a.litVal with
        | some (.varr vs) => some (vs :: ins, outs)
        | _ => none
      else some (ins, a.ev :: outs)

/-- The dispatch-table construction loop (match.js lines 84–92): for each
label set, in branch order, assign `inputMap[labelKey value] = branchIndex`
for each of its values.  The write order is kept so that the
JavaScript-object semantics (a later write to the same key overwrites an
earlier one) can be read off. -/
def buildAssignAux : Nat → List (List Value) → List (String × Nat)
  | _, [] => []
  | i, vs :: rest => vs.map (fun v => (labelKey v, i)) ++ buildAssignAux (i + 1) rest

/-- The dispatch table's assignment sequence, starting at branch 0. -/
def buildAssignments (inputs : List (List Value)) : List (String × Nat) :=
  buildAssignAux 0 inputs

/-- Reading a JavaScript object built by a sequence of keyed assignments:
the last assignment to the key wins. -/
def lookupLast : List (String × Nat) → String → Option Nat
  | [], _ => none
  | (k, i) :: rest, key =>
    match lookupLast rest key with
    | some j => some j
    | none => if k = key then some i else none

/-- The compiled form of a `match` expression: the input's evaluator, the
dispatch-table assignments, and the output thunks (branch outputs in order,
fallback last — match.js line 78). -/
structure MatchCompiled where
  inputEv : EvalFn
  assignments : List (String × Nat)
  outputs : List EvalFn

/-- `MatchExpression.compile`: split the compiled arguments into label sets
and output thunks, append the fallback thunk, and build the dispatch
assignments. -/
def matchCompile (args : List CompiledArg) : Option MatchCompiled :=
  match args with
  | [] => none
  | [_] => none
  | a0 :: b :: rest =>
    match splitPairs 1 ((b :: rest).dropLast) with
    | none => none
    | some (ins, outs) =>
      some ⟨a0.ev, buildAssignments ins, outs ++ [((b :: rest).getLast (by simp)).ev]⟩

/-- The generated evaluator (match.js lines 94–102), instrumented with the
list of output-thunk indices it invokes: evaluate the input, derive its
composite key, look it up; on a hit invoke that branch's thunk, on a miss
invoke the final (fallback) thunk.  Exactly one thunk is invoked per
evaluation, and none if the input itself fails. -/
def matchRun (m : MatchCompiled) (f : Feature) : Except String Value × List Nat :=
  match m.inputEv f with
  | .error e => (.error e, [])
  | .ok v =>
    match lookupLast m.assignments (compositeKey v) with
    | some i => ((m.outputs.getD i (fun _ => .error "missing output")) f, [i])
    | none =>
      ((m.outputs.getD (m.outputs.length - 1) (fun _ => .error "missing output")) f,
       [m.outputs.length - 1])

/-- The output index a compiled match selects for an input value: the
dispatch-table hit, or the fallback index on a miss. -/
def selectedIndex (m : MatchCompiled) (v : Value) : Nat :=
  match lookupLast m.assignments (compositeKey v) with
  | some i => i
  | none => m.outputs.length - 1

mutual

/-- Compilation of a parsed node: a literal compiles to a constant evaluator
(`JSON.stringify(this.value)`) carrying its value; a `match` node compiles
its children and then applies `matchCompile`; any other operator's compile
is external to the core (`none`, the base class's `Unimplemented`). -/
def compileExpr : Expr → Option CompiledArg
  | .lit _ _ v => some ⟨fun _ => .ok v, some v⟩
  | .lam _ op _ args =>
    if op = "match" then
      match compileList args with
      | none => none
      | some cargs =>
        match matchCompile cargs with
        | none => none
        | some m => some ⟨fun f => (matchRun m f).1, none⟩
    else none

/-- Compile a list of child nodes. -/
def compileList : List Expr → Option (List CompiledArg)
  | [] => some []
  | e :: es =>
    match compileExpr e, compileList es with
    | some c, some cs => some (c :: cs)
    | _, _ => none

end

/-! ## Lemmas about array-literal type inference -/

theorem inferItemType_uniform (t : Ty) :
    ∀ (vs : List Value), (∀ v ∈ vs, primitiveTypeOf v = some t) →
      inferItemType (some t) vs = some t
  | [], _ => rfl
  | v :: rest, h => by
    have hv : primitiveTypeOf v = some t := h v (by simp)
    have hrest : ∀ w ∈ rest, primitiveTypeOf w = some t := fun w hw => h w (by simp [hw])
    simp [inferItemType, hv, inferItemType_uniform t rest hrest]

theorem inferItemType_broken (t : Ty) :
    ∀ (vs : List Value), ¬ (∀ v ∈ vs, primitiveTypeOf v = some t) →
      inferItemType (some t) vs = some .tvalue
  | [], h => absurd (by simp) h
  | v :: rest, h => by
    match hv : primitiveTypeOf v with
    | none => simp [inferItemType, hv]
    | some u =>
      by_cases hu : u = t
      · subst hu
        have hrest : ¬ (∀ w ∈ rest, primitiveTypeOf w = some u) := by
          intro hall
          exact h (by
            intro w hw
            rcases List.mem_cons.mp hw with h1 | h2
            · exact h1 ▸ hv
            · exact hall w h2)
        simp [inferItemType, hv, inferItemType_broken u rest hrest]
      · simp [inferItemType, hv, hu]

/-- C4 (amended): array literal type inference — if every item has the same
primitive type, the inferred type is an array of that primitive type; if
item types are mixed or any item is non-primitive, the item type degrades to
the dynamic `Value` type; in both cases (not only the uniform one) the
scanned length is recorded as the array's fixed length. -/
theorem claim_c4 (vs : List Value) :
    (∀ t, vs ≠ [] → (∀ v ∈ vs, primitiveTypeOf v = some t) →
      inferArrayType vs = .tarray t (some vs.length))
    ∧ ((¬ ∃ t, vs ≠ [] ∧ ∀ v ∈ vs, primitiveTypeOf v = some t) →
      inferArrayType vs = .tarray .tvalue (some vs.length)) := by
  constructor
  · intro t hne hall
    match vs, hne with
    | v :: rest, _ =>
      have hv : primitiveTypeOf v = some t := hall v (by simp)
      have hrest : ∀ w ∈ rest, primitiveTypeOf w = some t :=
        fun w hw => hall w (by simp [hw])
      simp [inferArrayType, inferItemType, hv, inferItemType_uniform t rest hrest]
  · intro hno
    match vs with
    | [] => simp [inferArrayType, inferItemType]
    | v :: rest =>
      match hv : primitiveTypeOf v with
      | none => simp [inferArrayType, inferItemType, hv]
      | some t =>
        have hrest : ¬ (∀ w ∈ rest, primitiveTypeOf w = some t) := by
          intro hall
          exact hno ⟨t, by simp, by
            intro w hw
            rcases List.mem_cons.mp hw with h1 | h2
            · exact h1 ▸ hv
            · exact hall w h2⟩
        simp [inferArrayType, inferItemType, hv, inferItemType_broken t rest hrest]

/-- C4 counterexample: the mixed-type array literal `[1, "a", true]` infers
the dynamic `Value` item type but still records the fixed length 3, contrary
to the claim that no fixed length is recorded in the mixed case. -/
theorem claim_c4_counterexample :
    inferArrayType [.vnum 1, .vstr "a", .vbool true] = .tarray .tvalue (some 3)
    ∧ Ty.tarray .tvalue (some 3) ≠ Ty.tarray .tvalue none := by
  exact ⟨rfl, by decide⟩

/-- C4 witness: the amended characterization applied to `[1,2,3]` (uniform
numbers: item type Number, length 3) and `[1,"a",true]` (mixed: item type
Value, length 3 still recorded). -/
theorem claim_c4_witness :
    inferArrayType [.vnum 1, .vnum 2, .vnum 3] = .tarray .tnumber (some 3)
    ∧ inferArrayType [.vnum 1, .vstr "a", .vbool true] = .tarray .tvalue (some 3) :=
  ⟨(claim_c4 [.vnum 1, .vnum 2, .vnum 3]).1 .tnumber (by simp) (by decide),
   (claim_c4 [.vnum 1, .vstr "a", .vbool true]).2 (by
      rintro ⟨t, -, hall⟩
      have h1 := hall (.vnum 1) (by simp)
      have h2 := hall (.vstr "a") (by simp)
      simp only [primitiveTypeOf, Option.some.injEq] at h1 h2
      rw [← h1] at h2
      exact absurd h2 (by decide))⟩

/-! ## The match arity check (C3) -/

/-- Reduction of the parser on a registered match-parsing operator. -/
theorem parseFuel_match_red (defs : List (String × OpDef)) (d : OpDef) (n : Nat)
    (args : List Value) (ctx : Ctx)
    (hm : lookupDef defs "match" = some d) (hk : d.kind = .matchK) :
    parseFuel defs (n + 1) (.varr (.vstr "match" :: args)) ctx
      = matchParseF (parseFuel defs n) args ctx := by
  simp [parseFuel, hm, hk]

/-- C3 (amended): the match arity check counts all raw arguments including
the input: with fewer than 2 total arguments parsing fails with the
`Expected at least 2 arguments` error naming the found count, while an input
plus a single trailing argument (2 total) passes the check and is handed
directly to the default parse of the pair. -/
theorem claim_c3 (defs : List (String × OpDef)) (d : OpDef) (n : Nat)
    (args : List Value) (ctx : Ctx)
    (hm : lookupDef defs "match" = some d) (hk : d.kind = .matchK) :
    (args.length < 2 →
      parseFuel defs (n + 1) (.varr (.vstr "match" :: args)) ctx
        = .error ⟨ctx.key, "Expected at least 2 arguments, but found only "
            ++ toString args.length ++ "."⟩)
    ∧ (∀ a0 a1, args = [a0, a1] →
      parseFuel defs (n + 1) (.varr (.vstr "match" :: args)) ctx
        = (parseArgsF (parseFuel defs n) "match" ctx 1 [a0, a1]).map
            (fun parsedArgs => Expr.lam ctx.key "match" matchSig parsedArgs)) := by
  rw [parseFuel_match_red defs d n args ctx hm hk]
  constructor
  · intro hlt
    match args, hlt with
    | [], _ => rfl
    | [a], _ => rfl
  · rintro a0 a1 rfl
    show matchParseF (parseFuel defs n) [a0, a1] ctx = _
    cases h : parseArgsF (parseFuel defs n) "match" ctx 1 [a0, a1] with
    | ok es =>
      simp [matchParseF, normalizeMid, Bind.bind, Except.bind, h, Except.map]
    | error e =>
      simp [matchParseF, normalizeMid, Bind.bind, Except.bind, h, Except.map]

/-- C3 counterexample: `["match", 0, 1]` has an input and only one trailing
argument, yet parsing does not fail with the claimed arity error — it
succeeds outright (the check `args.length < 2` counts the input). -/
theorem claim_c3_counterexample :
    parseExpression defsM (.varr [.vstr "match", .vnum 0, .vnum 1]) ctx0
      = .ok (.lam "" "match" matchSig
          [.lit "1" .tnumber (.vnum 0), .lit "2" .tnumber (.vnum 1)]) := rfl

/-- C3 witness: the amended theorem applied at `["match", 0]` (1 total
argument: the arity error names 1) and at `["match", 0, 1]` (2 total
arguments: delegated to the default parse). -/
theorem claim_c3_witness :
    (parseFuel defsM 4 (.varr [.vstr "match", .vnum 0]) ctx0
      = .error ⟨"", "Expected at least 2 arguments, but found only 1."⟩)
    ∧ (parseFuel defsM 4 (.varr [.vstr "match", .vnum 0, .vnum 1]) ctx0
      = (parseArgsF (parseFuel defsM 3) "match" ctx0 1 [.vnum 0, .vnum 1]).map
          (fun parsedArgs => Expr.lam ctx0.key "match" matchSig parsedArgs)) :=
  ⟨(claim_c3 defsM ⟨"match", .matchK⟩ 3 [.vnum 0] ctx0 rfl rfl).1 (by decide),
   (claim_c3 defsM ⟨"match", .matchK⟩ 3 [.vnum 0, .vnum 1] ctx0 rfl rfl).2
     (.vnum 0) (.vnum 1) rfl⟩

/-! ## Match label validation failures (C9, C10) -/

theorem okLabel_spec (a : Value) (h : okLabel a = true) :
    (toGroup a).length ≠ 0 ∧ ∀ v ∈ toGroup a, jsTypeof v ≠ "object" := by
  simp only [okLabel, Bool.and_eq_true, List.all_eq_true] at h
  constructor
  · intro hz
    have h1 := h.1
    rw [List.length_eq_zero] at hz
    rw [hz] at h1
    simp [List.isEmpty] at h1
  · intro v hv hobj
    have h2 := h.2 v hv
    rw [hobj] at h2
    simp at h2

theorem checkGroup_ok (key : String) (i : Nat) :
    ∀ (j : Nat) (g : List Value), (∀ v ∈ g, jsTypeof v ≠ "object") →
      checkGroup key i j g = .ok ()
  | _, [], _ => rfl
  | j, v :: rest, h => by
    have hv : jsTypeof v ≠ "object" := h v (by simp)
    have hrest : ∀ w ∈ rest, jsTypeof w ≠ "object" := fun w hw => h w (by simp [hw])
    simp [checkGroup, hv, checkGroup_ok key i (j + 1) rest hrest]

theorem checkGroup_err (key : String) (i : Nat) :
    ∀ (g : List Value) (j d : Nat),
      d < g.length →
      (∀ e, e < d → jsTypeof (g.getD e .vnull) ≠ "object") →
      jsTypeof (g.getD d .vnull) = "object" →
      checkGroup key i j g
        = .error ⟨key ++ "." ++ toString (i + 1) ++ "." ++ toString (j + d),
            "Match inputs must be literal primitive values or arrays of literal primitive values."⟩
  | [], _, d, hd, _, _ => absurd hd (by simp)
  | v :: rest, j, 0, _, _, hobj => by
    simp only [List.getD_cons_zero] at hobj
    simp [checkGroup, hobj]
  | v :: rest, j, d + 1, hd, hprev, hobj => by
    have hv : jsTypeof v ≠ "object" := by
      have := hprev 0 (by omega)
      simpa using this
    have hrec := checkGroup_err key i rest (j + 1) d
      (by simpa using Nat.lt_of_succ_lt_succ hd)
      (fun e he => by
        have := hprev (e + 1) (by omega)
        simpa using this)
      (by simpa using hobj)
    rw [show j + (d + 1) = j + 1 + d from by omega]
    simp [checkGroup, hv, hrec]

theorem normalizeMid_empty (key : String) :
    ∀ (mid : List Value) (s d : Nat),
      d < mid.length →
      (s + d) % 2 = 1 →
      mid.getD d .vnull = .varr [] →
      (∀ j, j < d → (s + j) % 2 = 1 → okLabel (mid.getD j .vnull) = true) →
      normalizeMid key s mid
        = .error ⟨key ++ "." ++ toString (s + d + 1), "Expected at least one input value."⟩
  | [], _, d, hd, _, _, _ => absurd hd (by simp)
  | a :: rest, s, 0, _, hodd, hval, _ => by
    simp only [List.getD_cons_zero] at hval
    subst hval
    simp only [Nat.add_zero] at hodd ⊢
    simp [normalizeMid, hodd, toGroup]
  | a :: rest, s, d + 1, hd, hodd, hval, hprev => by
    have hrec := normalizeMid_empty key rest (s + 1) d
      (by simpa using Nat.lt_of_succ_lt_succ hd)
      (by rw [show s + 1 + d = s + (d + 1) from by omega]; exact hodd)
      (by simpa using hval)
      (fun j hj ho => by
        have := hprev (j + 1) (by omega)
          (by rw [show s + (j + 1) = s + 1 + j from by omega]; exact ho)
        simpa using this)
    rw [show s + (d + 1) + 1 = s + 1 + d + 1 from by omega]
    by_cases hs : s % 2 = 1
    · have ha := okLabel_spec (a := a) (by simpa using hprev 0 (by omega) (by simpa using hs))
      simp [normalizeMid, hs, ha.1, checkGroup_ok key s 0 _ ha.2,
        Bind.bind, Except.bind, hrec]
    · simp [normalizeMid, hs, Bind.bind, Except.bind, hrec]

theorem normalizeMid_objElem (key : String) :
    ∀ (mid : List Value) (s d : Nat),
      d < mid.length →
      (s + d) % 2 = 1 →
      (∀ j, j < d → (s + j) % 2 = 1 → okLabel (mid.getD j .vnull) = true) →
      ∀ e, e < (toGroup (mid.getD d .vnull)).length →
      (∀ e', e' < e → jsTypeof ((toGroup (mid.getD d .vnull)).getD e' .vnull) ≠ "object") →
      jsTypeof ((toGroup (mid.getD d .vnull)).getD e .vnull) = "object" →
      normalizeMid key s mid
        = .error ⟨key ++ "." ++ toString (s + d + 1) ++ "." ++ toString e,
            "Match inputs must be literal primitive values or arrays of literal primitive values."⟩
  | [], _, d, hd, _, _, _, _, _, _ => absurd hd (by simp)
  | a :: rest, s, 0, _, hodd, _, e, he, hbefore, hobj => by
    simp only [List.getD_cons_zero] at he hbefore hobj
    have hne : (toGroup a).length ≠ 0 := by omega
    have hchk := checkGroup_err key s (toGroup a) 0 e he hbefore hobj
    simp only [Nat.zero_add] at hchk
    simp only [Nat.add_zero] at hodd ⊢
    simp [normalizeMid, hodd, hne, Bind.bind, Except.bind, hchk]
  | a :: rest, s, d + 1, hd, hodd, hprev, e, he, hbefore, hobj => by
    have hrec := normalizeMid_objElem key rest (s + 1) d
      (by simpa using Nat.lt_of_succ_lt_succ hd)
      (by rw [show s + 1 + d = s + (d + 1) from by omega]; exact hodd)
      (fun j hj ho => by
        have := hprev (j + 1) (by omega)
          (by rw [show s + (j + 1) = s + 1 + j from by omega]; exact ho)
        simpa using this)
      e (by simpa using he) (by simpa using hbefore) (by simpa using hobj)
    rw [show s + (d + 1) + 1 = s + 1 + d + 1 from by omega]
    by_cases hs : s % 2 = 1
    · have ha := okLabel_spec (a := a) (by simpa using hprev 0 (by omega) (by simpa using hs))
      simp [normalizeMid, hs, ha.1, checkGroup_ok key s 0 _ ha.2,
        Bind.bind, Except.bind, hrec]
    · simp [normalizeMid, hs, Bind.bind, Except.bind, hrec]

/-- A normalization failure is the parse result of `MatchExpression.parse`. -/
theorem matchParseF_norm_err (p : Value → Ctx → Except ParsingError Expr)
    (a0 b : Value) (rest : List Value) (ctx : Ctx) (E : ParsingError)
    (h : normalizeMid ctx.key 1 ((b :: rest).dropLast) = .error E) :
    matchParseF p (a0 :: b :: rest) ctx = .error E := by
  simp [matchParseF, Bind.bind, Except.bind, h]

/-- `dropLast` preserves all entries except the last. -/
theorem getD_dropLast (x : Value) :
    ∀ (l : List Value) (k : Nat), k + 1 < l.length → l.dropLast.getD k x = l.getD k x
  | [], k, h => absurd h (by simp)
  | [a], k, h => absurd h (by simp)
  | a :: b :: rest, 0, _ => by simp
  | a :: b :: rest, k + 1, h => by
    have := getD_dropLast x (b :: rest) k (by simpa using Nat.lt_of_succ_lt_succ h)
    simpa using this

/-- C9: a raw `match` expression whose label position `i` (an odd argument
index, the argument list counted from the input at index 0) normalizes to an
empty label array fails with `Expected at least one input value.` located at
`<key>.<i+1>`, provided the earlier label positions pass validation (parsing
is fail-fast, so an earlier invalid label would be reported instead). -/
theorem claim_c9 (defs : List (String × OpDef)) (d : OpDef) (n : Nat)
    (args : List Value) (ctx : Ctx) (i : Nat)
    (hm : lookupDef defs "match" = some d) (hk : d.kind = .matchK)
    (hlen : 2 ≤ args.length)
    (hi1 : 1 ≤ i) (hi2 : i ≤ args.length - 2) (hodd : i % 2 = 1)
    (hempty : args.getD i .vnull = .varr [])
    (hprev : ∀ j, 1 ≤ j → j < i → j % 2 = 1 → okLabel (args.getD j .vnull) = true) :
    parseFuel defs (n + 1) (.varr (.vstr "match" :: args)) ctx
      = .error ⟨ctx.key ++ "." ++ toString (i + 1), "Expected at least one input value."⟩ := by
  rw [parseFuel_match_red defs d n args ctx hm hk]
  match args, hlen, hi2, hempty, hprev with
  | a0 :: b :: rest, _, hi2, hempty, hprev =>
    have hi2' : i ≤ rest.length := by simpa using hi2
    have hmidlen : ((b :: rest).dropLast).length = rest.length := by simp
    have hi : i - 1 < ((b :: rest).dropLast).length := by omega
    have hgetd : ∀ k, k < rest.length →
        ((b :: rest).dropLast).getD k .vnull = (a0 :: b :: rest).getD (k + 1) .vnull := by
      intro k hk2
      rw [getD_dropLast .vnull (b :: rest) k (by simp; omega)]
      simp
    apply matchParseF_norm_err
    have hmain := normalizeMid_empty ctx.key ((b :: rest).dropLast) 1 (i - 1) hi
      (by rw [show 1 + (i - 1) = i from by omega]; exact hodd)
      (by rw [hgetd (i - 1) (by omega), show (i - 1) + 1 = i from by omega]; exact hempty)
      (fun j hj ho => by
        rw [hgetd j (by omega)]
        exact hprev (j + 1) (by omega) (by omega) (by omega))
    rw [show 1 + (i - 1) + 1 = i + 1 from by omega] at hmain
    exact hmain

/-- C9 witness: `["match", 0, [], "out", "fb"]` fails with the empty-label
error located at `.2`. -/
theorem claim_c9_witness :
    parseFuel defsM 4 (.varr [.vstr "match", .vnum 0, .varr [], .vstr "out", .vstr "fb"]) ctx0
      = .error ⟨".2", "Expected at least one input value."⟩ := by
  have h := claim_c9 defsM ⟨"match", .matchK⟩ 3
    [.vnum 0, .varr [], .vstr "out", .vstr "fb"] ctx0 1 rfl rfl
    (by decide) (by decide) (by decide) (by decide) rfl
    (fun j h1 h2 _ => absurd (Nat.lt_of_le_of_lt h1 h2) (by omega))
  exact h

/-- C10: a raw `match` expression with `null` as a label-set element (bare
`null` normalizes to the one-element group `[null]`) fails with the
`Match inputs must be literal primitive values...` error located at that
element's dotted path `<key>.<i+1>.<e>`, because the non-primitive check
classifies `null` as an object (`typeof null === "object"`); hypotheses
require the earlier label positions and earlier group elements to pass,
since parsing is fail-fast. -/
theorem claim_c10 (defs : List (String × OpDef)) (d : OpDef) (n : Nat)
    (args : List Value) (ctx : Ctx) (i e : Nat)
    (hm : lookupDef defs "match" = some d) (hk : d.kind = .matchK)
    (hlen : 2 ≤ args.length)
    (hi1 : 1 ≤ i) (hi2 : i ≤ args.length - 2) (hodd : i % 2 = 1)
    (he : e < (toGroup (args.getD i .vnull)).length)
    (hnull : (toGroup (args.getD i .vnull)).getD e .vnull = .vnull)
    (hbefore : ∀ e', e' < e → jsTypeof ((toGroup (args.getD i .vnull)).getD e' .vnull) ≠ "object")
    (hprev : ∀ j, 1 ≤ j → j < i → j % 2 = 1 → okLabel (args.getD j .vnull) = true) :
    parseFuel defs (n + 1) (.varr (.vstr "match" :: args)) ctx
      = .error ⟨ctx.key ++ "." ++ toString (i + 1) ++ "." ++ toString e,
          "Match inputs must be literal primitive values or arrays of literal primitive values."⟩
    ∧ jsTypeof .vnull = "object" := by
  refine ⟨?_, rfl⟩
  rw [parseFuel_match_red defs d n args ctx hm hk]
  match args, hlen, hi2, he, hnull, hbefore, hprev with
  | a0 :: b :: rest, _, hi2, he, hnull, hbefore, hprev =>
    have hi2' : i ≤ rest.length := by simpa using hi2
    have hi : i - 1 < ((b :: rest).dropLast).length := by simp; omega
    have hgetd : ∀ k, k < rest.length →
        ((b :: rest).dropLast).getD k .vnull = (a0 :: b :: rest).getD (k + 1) .vnull := by
      intro k hk2
      rw [getD_dropLast .vnull (b :: rest) k (by simp; omega)]
      simp
    have hgi : ((b :: rest).dropLast).getD (i - 1) .vnull = (a0 :: b :: rest).getD i .vnull := by
      rw [hgetd (i - 1) (by omega), show (i - 1) + 1 = i from by omega]
    apply matchParseF_norm_err
    have hmain := normalizeMid_objElem ctx.key ((b :: rest).dropLast) 1 (i - 1) hi
      (by rw [show 1 + (i - 1) = i from by omega]; exact hodd)
      (fun j hj ho => by
        rw [hgetd j (by omega)]
        exact hprev (j + 1) (by omega) (by omega) (by omega))
      e (by rw [hgi]; exact he)
      (fun e' he' => by rw [hgi]; exact hbefore e' he')
      (by rw [hgi, hnull]; rfl)
    rw [show 1 + (i - 1) + 1 = i + 1 from by omega] at hmain
    exact hmain

/-- C10 witness: `["match", 0, null, "out", "fb"]` fails with the
primitive-values error located at `.2.0`. -/
theorem claim_c10_witness :
    parseFuel defsM 4 (.varr [.vstr "match", .vnum 0, .vnull, .vstr "out", .vstr "fb"]) ctx0
      = .error ⟨".2.0",
          "Match inputs must be literal primitive values or arrays of literal primitive values."⟩
    ∧ jsTypeof .vnull = "object" := by
  have h := claim_c10 defsM ⟨"match", .matchK⟩ 3
    [.vnum 0, .vnull, .vstr "out", .vstr "fb"] ctx0 1 0 rfl rfl
    (by decide) (by decide) (by decide) (by decide) (by decide) rfl
    (fun e' he' => absurd he' (by omega))
    (fun j h1 h2 _ => absurd (Nat.lt_of_le_of_lt h1 h2) (by omega))
  exact h

/-! ## The match dispatch table (C6, C7, C8) -/

theorem lookupLast_append (xs ys : List (String × Nat)) (k : String) :
    lookupLast (xs ++ ys) k
      = match lookupLast ys k with
        | some j => some j
        | none => lookupLast xs k := by
  induction xs with
  | nil => cases h : lookupLast ys k <;> simp [lookupLast, h]
  | cons p rest ih =>
    cases p with
    | mk k0 i0 =>
      cases h : lookupLast ys k with
      | none => simp only [h] at ih ⊢; simp [lookupLast, ih]
      | some j => simp only [h] at ih ⊢; simp [lookupLast, ih]

theorem lookupLast_labels_mem (i : Nat) (k : String) :
    ∀ (vs : List Value), (∃ v ∈ vs, labelKey v = k) →
      lookupLast (vs.map (fun v => (labelKey v, i))) k = some i
  | [], h => absurd h (by simp)
  | v :: rest, h => by
    by_cases hrest : ∃ w ∈ rest, labelKey w = k
    · have := lookupLast_labels_mem i k rest hrest
      simp [lookupLast, this]
    · have hnone : lookupLast (rest.map (fun v => (labelKey v, i))) k = none := by
        clear h
        induction rest with
        | nil => rfl
        | cons w ws ih =>
          have hw : labelKey w ≠ k := fun hc => hrest ⟨w, by simp, hc⟩
          have hws : lookupLast (ws.map (fun v => (labelKey v, i))) k = none :=
            ih (fun ⟨u, hu, hc⟩ => hrest ⟨u, by simp [hu], hc⟩)
          simp [lookupLast, hws, hw]
      have hv : labelKey v = k := by
        rcases h with ⟨u, hu, hc⟩
        rcases List.mem_cons.mp hu with h1 | h2
        · exact h1 ▸ hc
        · exact absurd ⟨u, h2, hc⟩ hrest
      simp [lookupLast, hnone, hv]

theorem lookupLast_labels_none (i : Nat) (k : String) :
    ∀ (vs : List Value), (∀ v ∈ vs, labelKey v ≠ k) →
      lookupLast (vs.map (fun v => (labelKey v, i))) k = none
  | [], _ => rfl
  | v :: rest, h => by
    have hv : labelKey v ≠ k := h v (by simp)
    have hrest := lookupLast_labels_none i k rest (fun w hw => h w (by simp [hw]))
    simp [lookupLast, hrest, hv]

theorem buildAssignAux_none (k : String) :
    ∀ (inputs : List (List Value)) (s : Nat),
      (∀ j, j < inputs.length → ∀ v ∈ inputs.getD j [], labelKey v ≠ k) →
      lookupLast (buildAssignAux s inputs) k = none
  | [], _, _ => rfl
  | vs :: rest, s, h => by
    have h0 : ∀ v ∈ vs, labelKey v ≠ k := by
      have := h 0 (by simp)
      simpa using this
    have hrest := buildAssignAux_none k rest (s + 1)
      (fun j hj v hv => by
        have := h (j + 1) (by simpa using Nat.succ_lt_succ hj)
        simp only [List.getD_cons_succ] at this
        exact this v hv)
    rw [buildAssignAux, lookupLast_append, hrest]
    exact lookupLast_labels_none s k vs h0

theorem buildAssignAux_last (k : String) :
    ∀ (inputs : List (List Value)) (s i : Nat),
      i < inputs.length →
      (∃ v ∈ inputs.getD i [], labelKey v = k) →
      (∀ j, i < j → j < inputs.length → ∀ v ∈ inputs.getD j [], labelKey v ≠ k) →
      lookupLast (buildAssignAux s inputs) k = some (s + i)
  | [], _, i, hi, _, _ => absurd hi (by simp)
  | vs :: rest, s, 0, _, hmem, hafter => by
    have hrest : lookupLast (buildAssignAux (s + 1) rest) k = none :=
      buildAssignAux_none k rest (s + 1)
        (fun j hj v hv => by
          have := hafter (j + 1) (by omega) (by simpa using Nat.succ_lt_succ hj)
          simp only [List.getD_cons_succ] at this
          exact this v hv)
    rw [buildAssignAux, lookupLast_append, hrest]
    have := lookupLast_labels_mem s k vs (by simpa using hmem)
    simpa using this
  | vs :: rest, s, i + 1, hi, hmem, hafter => by
    have hrec := buildAssignAux_last k rest (s + 1) i
      (by simpa using Nat.lt_of_succ_lt_succ hi)
      (by simpa using hmem)
      (fun j hj1 hj2 v hv => by
        have := hafter (j + 1) (by omega) (by simpa using Nat.succ_lt_succ hj2)
        simp only [List.getD_cons_succ] at this
        exact this v hv)
    rw [buildAssignAux, lookupLast_append, hrec]
    rw [show s + (i + 1) = s + 1 + i from by omega]

/-- C6: duplicate labels are last-write-wins — the dispatch table maps a key
occurring in several branches to the latest such branch; a table hit makes
evaluation invoke exactly that branch's thunk; and the concrete expression
`["match", 1, [1], "a", [1], "b", "fb"]` parses, compiles and evaluates to
`"b"`. -/
theorem claim_c6 :
    (∀ (inputs : List (List Value)) (k : String) (i : Nat),
        i < inputs.length →
        (∃ v ∈ inputs.getD i [], labelKey v = k) →
        (∀ j, i < j → j < inputs.length → ∀ v ∈ inputs.getD j [], labelKey v ≠ k) →
        lookupLast (buildAssignments inputs) k = some i)
    ∧ (∀ (m : MatchCompiled) (f : Feature) (v : Value) (i : Nat),
        m.inputEv f = .ok v →
        lookupLast m.assignments (compositeKey v) = some i →
        matchRun m f = ((m.outputs.getD i (fun _ => .error "missing output")) f, [i]))
    ∧ ((parseExpression defsM (.varr [.vstr "match", .vnum 1,
          .varr [.vnum 1], .vstr "a", .varr [.vnum 1], .vstr "b", .vstr "fb"]) ctx0).toOption.bind
          compileExpr).map (fun c => c.ev []) = some (.ok (.vstr "b")) := by
  refine ⟨?_, ?_, rfl⟩
  · intro inputs k i hi hmem hafter
    have := buildAssignAux_last k inputs 0 i hi hmem hafter
    simpa [buildAssignments] using this
  · intro m f v i h1 h2
    simp [matchRun, h1, h2]

/-- C6 witness: the table lemma applied to two branches both labelled
`number-1` (the later wins), and the hit lemma applied to a concrete
compiled match. -/
theorem claim_c6_witness :
    lookupLast (buildAssignments [[.vnum 1], [.vnum 1]]) "number-1" = some 1
    ∧ matchRun ⟨fun _ => .ok (.vnum 1), [("number-1", 1)],
        [fun _ => .ok (.vstr "a"), fun _ => .ok (.vstr "b"), fun _ => .ok (.vstr "fb")]⟩ []
      = (.ok (.vstr "b"), [1]) :=
  ⟨claim_c6.1 [[.vnum 1], [.vnum 1]] "number-1" 1 (by decide)
      ⟨.vnum 1, by simp, by decide⟩
      (by
        intro j hj1 hj2
        simp only [List.length_cons, List.length_nil] at hj2
        exact absurd hj1 (by omega)),
   claim_c6.2.1 ⟨fun _ => .ok (.vnum 1), [("number-1", 1)],
        [fun _ => .ok (.vstr "a"), fun _ => .ok (.vstr "b"), fun _ => .ok (.vstr "fb")]⟩
      [] (.vnum 1) 1 rfl (by decide)⟩

/-- C7: dispatch keys carry the runtime type tag, so number and string
labels with the same stringification stay distinct (`number-…` vs
`string-…` both at compile and at evaluation time); with branches keyed on
the number `0` and the string `"0"`, a string input `"0"` selects the string
branch; and an input whose composite key is absent from the table falls
through to the fallback thunk. -/
theorem claim_c7 :
    (∀ (n : Int) (s : String),
        compositeKey (.vnum n) ≠ compositeKey (.vstr s)
        ∧ labelKey (.vnum n) ≠ labelKey (.vstr s))
    ∧ (∀ (iev : EvalFn) (f : Feature),
        iev f = .ok (.vstr "0") →
        matchRun ⟨iev, buildAssignments [[.vnum 0], [.vstr "0"]],
          [fun _ => .ok (.vstr "a"), fun _ => .ok (.vstr "b"), fun _ => .ok (.vstr "z")]⟩ f
          = (.ok (.vstr "b"), [1]))
    ∧ (∀ (m : MatchCompiled) (f : Feature) (v : Value),
        m.inputEv f = .ok v →
        lookupLast m.assignments (compositeKey v) = none →
        matchRun m f
          = ((m.outputs.getD (m.outputs.length - 1) (fun _ => .error "missing output")) f,
             [m.outputs.length - 1])) := by
  refine ⟨?_, ?_, ?_⟩
  · intro n s
    constructor
    · intro h
      have h2 := congrArg String.data h
      simp only [compositeKey, runtimeTypeTag, valueToKeyString, String.data_append] at h2
      simp at h2
    · intro h
      have h2 := congrArg String.data h
      simp only [labelKey, jsTypeof, valueToKeyString, String.data_append] at h2
      simp at h2
  · intro iev f h
    simp only [matchRun, h]
    rfl
  · intro m f v h1 h2
    simp [matchRun, h1, h2]

/-- C7 witness: the key-distinctness at `0` vs `"0"`, the string-input
scenario with a constant input evaluator, and the fallback lemma at a
compiled match whose table misses the input `2`. -/
theorem claim_c7_witness :
    (compositeKey (.vnum 0) ≠ compositeKey (.vstr "0")
      ∧ labelKey (.vnum 0) ≠ labelKey (.vstr "0"))
    ∧ matchRun ⟨fun _ => .ok (.vstr "0"), buildAssignments [[.vnum 0], [.vstr "0"]],
        [fun _ => .ok (.vstr "a"), fun _ => .ok (.vstr "b"), fun _ => .ok (.vstr "z")]⟩ []
      = (.ok (.vstr "b"), [1])
    ∧ matchRun ⟨fun _ => .ok (.vnum 2), [("number-1", 0)],
        [fun _ => .ok (.vstr "a"), fun _ => .ok (.vstr "z")]⟩ []
      = (.ok (.vstr "z"), [1]) :=
  ⟨claim_c7.1 0 "0",
   claim_c7.2.1 (fun _ => .ok (.vstr "0")) [] rfl,
   claim_c7.2.2 ⟨fun _ => .ok (.vnum 2), [("number-1", 0)],
      [fun _ => .ok (.vstr "a"), fun _ => .ok (.vstr "z")]⟩ [] (.vnum 2) rfl (by decide)⟩

theorem splitPairs_fst_of_litVal_eq :
    ∀ (i : Nat) (xs ys : List CompiledArg),
      xs.map (fun a => a.litVal) = ys.map (fun a => a.litVal) →
      (splitPairs i xs).map (fun p => p.1) = (splitPairs i ys).map (fun p => p.1)
  | _, [], [], _ => rfl
  | _, [], _ :: _, h => by simp at h
  | _, _ :: _, [], h => by simp at h
  | i, x :: xs, y :: ys, h => by
    simp only [List.map_cons, List.cons.injEq] at h
    have ih := splitPairs_fst_of_litVal_eq (i + 1) xs ys h.2
    simp only [splitPairs]
    cases hx : splitPairs (i + 1) xs with
    | none =>
      cases hy : splitPairs (i + 1) ys with
      | none => rfl
      | some q => rw [hx, hy] at ih; exact Option.noConfusion ih
    | some p =>
      cases hy : splitPairs (i + 1) ys with
      | none => rw [hx, hy] at ih; exact Option.noConfusion ih
      | some q =>
        rw [hx, hy] at ih
        have ih2 : p.1 = q.1 := Option.some.inj ih
        rw [← h.1]
        by_cases hi : i % 2 = 1
        · cases hlv : x.litVal with
          | none => simp [hi]
          | some v => cases v <;> simp [hi, ih2]
        · simp [hi, ih2]

theorem matchCompile_assignments_of_litVal_eq :
    ∀ (args₁ args₂ : List CompiledArg),
      args₁.map (fun a => a.litVal) = args₂.map (fun a => a.litVal) →
      (matchCompile args₁).map (fun m => m.assignments)
        = (matchCompile args₂).map (fun m => m.assignments)
  | [], [], _ => rfl
  | [_], [_], _ => rfl
  | [], _ :: _, h => by simp at h
  | _ :: _, [], h => by simp at h
  | [_], _ :: _ :: _, h => by simp at h
  | _ :: _ :: _, [_], h => by simp at h
  | x :: x2 :: xs, y :: y2 :: ys, h => by
    simp only [List.map_cons, List.cons.injEq] at h
    have hmap : (x2 :: xs).map (fun a => a.litVal) = (y2 :: ys).map (fun a => a.litVal) := by
      simp only [List.map_cons]
      rw [h.2.1, h.2.2]
    have hdl : ((x2 :: xs).dropLast).map (fun a => a.litVal)
        = ((y2 :: ys).dropLast).map (fun a => a.litVal) := by
      rw [List.map_dropLast, List.map_dropLast, hmap]
    have hsp := splitPairs_fst_of_litVal_eq 1 ((x2 :: xs).dropLast) ((y2 :: ys).dropLast) hdl
    simp only [matchCompile]
    cases hx : splitPairs 1 ((x2 :: xs).dropLast) with
    | none =>
      cases hy : splitPairs 1 ((y2 :: ys).dropLast) with
      | none => rfl
      | some q => rw [hx, hy] at hsp; exact Option.noConfusion hsp
    | some p =>
      cases hy : splitPairs 1 ((y2 :: ys).dropLast) with
      | none => rw [hx, hy] at hsp; exact Option.noConfusion hsp
      | some q =>
        rw [hx, hy] at hsp
        have hsp2 : p.1 = q.1 := Option.some.inj hsp
        exact congrArg (fun l => some (buildAssignments l)) hsp2

/-- C8: laziness of the compiled match — the dispatch-table construction
depends only on the label literals (replacing any output evaluator leaves
the assignments unchanged); a successful evaluation invokes exactly the
selected output thunk and returns its result; replacing the outputs at all
non-selected indices (e.g. by failing thunks) cannot change the result; and
if the input itself fails, no output thunk is invoked at all. -/
theorem claim_c8 :
    (∀ (args₁ args₂ : List CompiledArg),
        args₁.map (fun a => a.litVal) = args₂.map (fun a => a.litVal) →
        (matchCompile args₁).map (fun m => m.assignments)
          = (matchCompile args₂).map (fun m => m.assignments))
    ∧ (∀ (m : MatchCompiled) (f : Feature) (v : Value),
        m.inputEv f = .ok v →
        (matchRun m f).2 = [selectedIndex m v]
          ∧ (matchRun m f).1
            = (m.outputs.getD (selectedIndex m v) (fun _ => .error "missing output")) f)
    ∧ (∀ (iev : EvalFn) (asg : List (String × Nat)) (outs₁ outs₂ : List EvalFn)
          (f : Feature) (v : Value),
        iev f = .ok v →
        outs₁.length = outs₂.length →
        outs₁.getD (selectedIndex ⟨iev, asg, outs₁⟩ v) (fun _ => .error "missing output")
          = outs₂.getD (selectedIndex ⟨iev, asg, outs₂⟩ v) (fun _ => .error "missing output") →
        matchRun ⟨iev, asg, outs₁⟩ f = matchRun ⟨iev, asg, outs₂⟩ f)
    ∧ (∀ (m : MatchCompiled) (f : Feature) (e : String),
        m.inputEv f = .error e → (matchRun m f).2 = []) := by
  refine ⟨matchCompile_assignments_of_litVal_eq, ?_, ?_, ?_⟩
  · intro m f v h
    refine ⟨?_, ?_⟩ <;>
      (simp only [matchRun, selectedIndex, h]
       cases hl : lookupLast m.assignments (compositeKey v) <;> simp [hl])
  · intro iev asg outs₁ outs₂ f v h hlen hsel
    simp only [matchRun, h]
    cases hl : lookupLast asg (compositeKey v) with
    | some i =>
      have hs : selectedIndex ⟨iev, asg, outs₁⟩ v = i := by simp [selectedIndex, hl]
      have hs2 : selectedIndex ⟨iev, asg, outs₂⟩ v = i := by simp [selectedIndex, hl]
      rw [hs, hs2] at hsel
      exact congrArg (fun g => (g f, [i])) hsel
    | none =>
      have hs : selectedIndex ⟨iev, asg, outs₁⟩ v = outs₁.length - 1 := by
        simp [selectedIndex, hl]
      have hs2 : selectedIndex ⟨iev, asg, outs₂⟩ v = outs₂.length - 1 := by
        simp [selectedIndex, hl]
      rw [hs, hs2] at hsel
      show ((outs₁.getD (outs₁.length - 1) (fun _ => Except.error "missing output")) f,
            [outs₁.length - 1])
          = ((outs₂.getD (outs₂.length - 1) (fun _ => Except.error "missing output")) f,
            [outs₂.length - 1])
      rw [hsel, hlen]
  · intro m f e h
    simp [matchRun, h]

/-- C8 witness: the construction-independence lemma applied to two argument
lists that differ only in an output evaluator; the single-invocation lemma
at a concrete compiled match; the unselected-branch lemma with the second
branch replaced by a failing thunk; and the no-invocation lemma for a
failing input. -/
theorem claim_c8_witness :
    ((matchCompile [⟨fun _ => .ok (.vnum 1), none⟩,
        ⟨fun _ => .ok (.varr [.vnum 1]), some (.varr [.vnum 1])⟩,
        ⟨fun _ => .ok (.vstr "a"), none⟩,
        ⟨fun _ => .ok (.vstr "z"), none⟩]).map (fun m => m.assignments)
      = (matchCompile [⟨fun _ => .ok (.vnum 1), none⟩,
        ⟨fun _ => .ok (.varr [.vnum 1]), some (.varr [.vnum 1])⟩,
        ⟨fun _ => .error "boom", none⟩,
        ⟨fun _ => .ok (.vstr "z"), none⟩]).map (fun m => m.assignments))
    ∧ (matchRun ⟨fun _ => .ok (.vnum 1), [("number-1", 0)],
        [fun _ => .ok (.vstr "a"), fun _ => .ok (.vstr "z")]⟩ []).2 = [0]
    ∧ matchRun ⟨fun _ => .ok (.vnum 1), [("number-1", 0)],
        [fun _ => .ok (.vstr "a"), fun _ => .ok (.vstr "z")]⟩ []
      = matchRun ⟨fun _ => .ok (.vnum 1), [("number-1", 0)],
        [fun _ => .ok (.vstr "a"), fun _ => .error "boom"]⟩ []
    ∧ (matchRun ⟨fun _ => .error "bad input", [("number-1", 0)],
        [fun _ => .ok (.vstr "a"), fun _ => .ok (.vstr "z")]⟩ []).2 = [] :=
  ⟨claim_c8.1 _ _ rfl,
   (claim_c8.2.1 ⟨fun _ => .ok (.vnum 1), [("number-1", 0)],
      [fun _ => .ok (.vstr "a"), fun _ => .ok (.vstr "z")]⟩ [] (.vnum 1) rfl).1,
   claim_c8.2.2.1 (fun _ => .ok (.vnum 1)) [("number-1", 0)]
      [fun _ => .ok (.vstr "a"), fun _ => .ok (.vstr "z")]
      [fun _ => .ok (.vstr "a"), fun _ => .error "boom"]
      [] (.vnum 1) rfl rfl rfl,
   claim_c8.2.2.2 ⟨fun _ => .error "bad input", [("number-1", 0)],
      [fun _ => .ok (.vstr "a"), fun _ => .ok (.vstr "z")]⟩ [] "bad input" rfl⟩

/-! ## The default parse with type-checking (C1, C2) -/

theorem parseArgsF_length (p : Value → Ctx → Except ParsingError Expr) (op : String)
    (ctx : Ctx) :
    ∀ (idx : Nat) (xs : List Value) (es : List Expr),
      parseArgsF p op ctx idx xs = .ok es → es.length = xs.length
  | _, [], es, h => by
    simp only [parseArgsF] at h
    cases h
    rfl
  | idx, a :: rest, es, h => by
    simp only [parseArgsF, Bind.bind, Except.bind] at h
    cases hp : p a (ctx.concat idx (some op)) with
    | error e => rw [hp] at h; cases h
    | ok e =>
      rw [hp] at h
      cases hr : parseArgsF p op ctx (idx + 1) rest with
      | error e2 => rw [hr] at h; cases h
      | ok es2 =>
        rw [hr] at h
        cases h
        simp [parseArgsF_length p op ctx (idx + 1) rest es2 hr]

theorem typecheckList_length :
    ∀ (as_ : List Expr) (cs : List Expr), typecheckList as_ = .ok cs → cs.length = as_.length
  | [], cs, h => by
    simp only [typecheckList] at h
    cases h
    rfl
  | a :: rest, cs, h => by
    simp only [typecheckList] at h
    cases ha : typecheckExpr a with
    | error e => rw [ha] at h; cases h
    | ok a' =>
      rw [ha] at h
      cases hr : typecheckList rest with
      | error e => rw [hr] at h; cases h
      | ok cs2 =>
        rw [hr] at h
        cases h
        simp [typecheckList_length rest cs2 hr]

theorem bindAll_error_mismatch :
    ∀ (pairs : List (Ty × Ty)) (env : List (String × Ty)) (pos : Nat) (e : TcError),
      bindAll env pos pairs = .error e → ∃ p ex ac, e = .mismatch p ex ac
  | [], _, _, _, h => by cases h
  | (p, a) :: rest, env, pos, e, h => by
    simp only [bindAll] at h
    cases hu : unify env p a with
    | none =>
      rw [hu] at h
      cases h
      exact ⟨pos, applySubst env p, a, rfl⟩
    | some env' =>
      rw [hu] at h
      exact bindAll_error_mismatch rest env' (pos + 1) e h

/-- Reduction of the parser on a registered default-parsing operator. -/
theorem parseFuel_default_red (defs : List (String × OpDef)) (op : String) (sig : Ty)
    (n : Nat) (rawArgs : List Value) (ctx : Ctx)
    (hop : op ≠ "literal")
    (hdef : lookupDef defs op = some ⟨op, .defaultK sig⟩) :
    parseFuel defs (n + 1) (.varr (.vstr op :: rawArgs)) ctx
      = (parseArgsF (parseFuel defs n) op ctx 1 rawArgs).bind
          (fun parsedArgs => .ok (.lam ctx.key op sig parsedArgs)) := by
  simp [parseFuel, hop, hdef, Bind.bind]

/-- C1: for an operator with a fixed-arity `Lambda(params, result)` signature
registered for the default parse, once the raw arguments parse and the parsed
children type-check: a raw-argument count different from `params.length`
makes the pass fail with exactly the arity error naming expected vs. found
count; with matching counts, the pass succeeds resolving the node's type iff
the position-wise generic unification of the children's types against the
declared parameters succeeds, and otherwise fails with the type-mismatch
error the unification produces. -/
theorem claim_c1 (defs : List (String × OpDef)) (op : String) (result : Ty)
    (params : List Ty) (n : Nat) (rawArgs : List Value) (ctx : Ctx)
    (node : Expr) (cargs : List Expr)
    (hop : op ≠ "literal")
    (hdef : lookupDef defs op = some ⟨op, .defaultK (.tlambda result params)⟩)
    (hfix : splitAtNargs params = none)
    (hparse : parseFuel defs (n + 1) (.varr (.vstr op :: rawArgs)) ctx = .ok node)
    (hkids : typecheckList node.args = .ok cargs) :
    (rawArgs.length ≠ params.length →
      typecheckExpr node = .error (.arity params.length rawArgs.length))
    ∧ (rawArgs.length = params.length →
        match bindAll [] 0 (params.zip (cargs.map Expr.type)) with
        | .ok env => typecheckExpr node = .ok (.lam ctx.key op (applySubst env result) cargs)
        | .error e =>
          typecheckExpr node = .error e ∧ ∃ pos ex ac, e = .mismatch pos ex ac) := by
  rw [parseFuel_default_red defs op (.tlambda result params) n rawArgs ctx hop hdef] at hparse
  cases hpa : parseArgsF (parseFuel defs n) op ctx 1 rawArgs with
  | error e => rw [hpa] at hparse; cases hparse
  | ok pargs =>
    rw [hpa] at hparse
    cases hparse
    -- node = .lam ctx.key op (.tlambda result params) pargs
    simp only [Expr.args] at hkids
    have hplen : pargs.length = rawArgs.length :=
      parseArgsF_length (parseFuel defs n) op ctx 1 rawArgs pargs hpa
    have hclen : cargs.length = rawArgs.length := by
      rw [typecheckList_length pargs cargs hkids, hplen]
    have htylen : (cargs.map Expr.type).length = rawArgs.length := by
      simp [hclen]
    constructor
    · intro hne
      simp [typecheckExpr, hkids, checkApplication, hfix, htylen, hne]
    · intro heq
      cases hb : bindAll [] 0 (params.zip (cargs.map Expr.type)) with
      | ok env =>
        simp only [typecheckExpr, hkids, checkApplication, hfix, htylen, heq, if_true]
        simp [hb, Except.map]
      | error e =>
        refine ⟨?_, bindAll_error_mismatch _ _ _ _ hb⟩
        simp only [typecheckExpr, hkids, checkApplication, hfix, htylen, heq, if_true]
        simp [hb, Except.map]

/-- C1 witness: a fixed-arity operator `len : (String) → Number`; parsing and
checking `["len", "abc"]` succeeds with the resolved Number type, and
`["len", "a", "b"]` (two raw arguments against one declared parameter) fails
the pass with the arity error naming expected 1 vs. found 2. -/
theorem claim_c1_witness :
    typecheckExpr (.lam "" "len" (.tlambda .tnumber [.tstring])
        [.lit "1" .tstring (.vstr "abc")])
      = .ok (.lam "" "len" .tnumber [.lit "1" .tstring (.vstr "abc")])
    ∧ typecheckExpr (.lam "" "len" (.tlambda .tnumber [.tstring])
        [.lit "1" .tstring (.vstr "a"), .lit "2" .tstring (.vstr "b")])
      = .error (.arity 1 2) := by
  constructor
  · have h := (claim_c1 [("len", ⟨"len", .defaultK (.tlambda .tnumber [.tstring])⟩)]
      "len" .tnumber [.tstring] 1 [.vstr "abc"] ctx0
      (.lam "" "len" (.tlambda .tnumber [.tstring]) [.lit "1" .tstring (.vstr "abc")])
      [.lit "1" .tstring (.vstr "abc")]
      (by decide) rfl rfl rfl rfl).2 rfl
    exact h
  · exact (claim_c1 [("len", ⟨"len", .defaultK (.tlambda .tnumber [.tstring])⟩)]
      "len" .tnumber [.tstring] 1 [.vstr "a", .vstr "b"] ctx0
      (.lam "" "len" (.tlambda .tnumber [.tstring])
        [.lit "1" .tstring (.vstr "a"), .lit "2" .tstring (.vstr "b")])
      [.lit "1" .tstring (.vstr "a"), .lit "2" .tstring (.vstr "b")]
      (by decide) rfl rfl rfl rfl).1 (by decide)

/-! ## Resolvedness of checked trees (C2) -/

theorem tyVars_of_concrete : ∀ (t : Ty), isConcrete t = true → tyVars t = []
  | .tnull, _ => rfl
  | .tstring, _ => rfl
  | .tnumber, _ => rfl
  | .tboolean, _ => rfl
  | .tobject, _ => rfl
  | .tcolor, _ => rfl
  | .tvalue, _ => rfl
  | .tarray it n, h => by
    simp only [isConcrete] at h
    simp [tyVars, tyVars_of_concrete it h]
  | .tvar _, h => by simp [isConcrete] at h
  | .tlambda _ _, h => by simp [isConcrete] at h
  | .tnargs _ _, h => by simp [isConcrete] at h

/-- The trivial output of `unify_props` when the environment is unchanged
and the declared type has no variables. -/
theorem envProps_of_closed (d : Ty) (env : List (String × Ty))
    (henv : ∀ m t, envFind env m = some t → isConcrete t = true)
    (hvars : tyVars d = []) :
    (∀ m t, envFind env m = some t → envFind env m = some t)
    ∧ (∀ m t, envFind env m = some t → isConcrete t = true)
    ∧ (∀ x ∈ tyVars d, ∃ t, envFind env x = some t ∧ isConcrete t = true) :=
  ⟨fun _ _ h => h, henv, fun x hx => absurd (hvars ▸ hx) (List.not_mem_nil x)⟩

/-- Unification against a concrete argument type extends the environment
monotonically, keeps every binding concrete, and binds every variable of the
declared type. -/
theorem unify_props :
    ∀ (d : Ty) (env : List (String × Ty)) (a : Ty) (env' : List (String × Ty)),
      isConcrete a = true →
      (∀ m t, envFind env m = some t → isConcrete t = true) →
      unify env d a = some env' →
      ((∀ m t, envFind env m = some t → envFind env' m = some t)
      ∧ (∀ m t, envFind env' m = some t → isConcrete t = true)
      ∧ (∀ x ∈ tyVars d, ∃ t, envFind env' x = some t ∧ isConcrete t = true))
  | .tvar nm, env, a, env', hca, henv, hu => by
    simp only [unify] at hu
    cases hf : envFind env nm with
    | some t =>
      simp only [hf] at hu
      split at hu
      · cases hu
        exact ⟨fun _ _ h => h, henv, fun x hx => by
          simp only [tyVars, List.mem_singleton] at hx
          rw [hx]
          exact ⟨t, hf, henv nm t hf⟩⟩
      · cases hu
    | none =>
      simp only [hf] at hu
      cases hu
      refine ⟨?_, ?_, ?_⟩
      · intro m t hm
        simp only [envFind]
        by_cases hnm : nm = m
        · subst hnm
          rw [hf] at hm
          cases hm
        · simp [hnm, hm]
      · intro m t hm
        simp only [envFind] at hm
        by_cases hnm : nm = m
        · rw [if_pos hnm] at hm
          cases hm
          exact hca
        · rw [if_neg hnm] at hm
          exact henv m t hm
      · intro x hx
        simp only [tyVars, List.mem_singleton] at hx
        subst hx
        exact ⟨a, by simp [envFind], hca⟩
  | .tarray it nd, env, a, env', hca, henv, hu => by
    cases a
    case tarray ia na =>
      simp only [unify] at hu
      have hia : isConcrete ia = true := by simpa [isConcrete] using hca
      split at hu
      · have h := unify_props it env ia env' hia henv hu
        exact ⟨h.1, h.2.1, by simpa [tyVars] using h.2.2⟩
      · cases hu
    all_goals
      (simp only [unify] at hu
       split at hu
       · rename_i hEq
         exact absurd hEq (by intro hc; cases hc)
       · cases hu)
  | .tnull, env, a, env', hca, henv, hu => by
    simp only [unify] at hu
    split at hu
    · cases hu
      exact envProps_of_closed .tnull env henv rfl
    · cases hu
  | .tstring, env, a, env', hca, henv, hu => by
    simp only [unify] at hu
    split at hu
    · cases hu
      exact envProps_of_closed .tstring env henv rfl
    · cases hu
  | .tnumber, env, a, env', hca, henv, hu => by
    simp only [unify] at hu
    split at hu
    · cases hu
      exact envProps_of_closed .tnumber env henv rfl
    · cases hu
  | .tboolean, env, a, env', hca, henv, hu => by
    simp only [unify] at hu
    split at hu
    · cases hu
      exact envProps_of_closed .tboolean env henv rfl
    · cases hu
  | .tobject, env, a, env', hca, henv, hu => by
    simp only [unify] at hu
    split at hu
    · cases hu
      exact envProps_of_closed .tobject env henv rfl
    · cases hu
  | .tcolor, env, a, env', hca, henv, hu => by
    simp only [unify] at hu
    split at hu
    · cases hu
      exact envProps_of_closed .tcolor env henv rfl
    · cases hu
  | .tvalue, env, a, env', hca, henv, hu => by
    simp only [unify] at hu
    split at hu
    · cases hu
      exact envProps_of_closed .tvalue env henv rfl
    · cases hu
  | .tlambda r ps, env, a, env', hca, henv, hu => by
    simp only [unify] at hu
    split at hu
    · rename_i hEq
      rw [← hEq] at hca
      simp [isConcrete] at hca
    · cases hu
  | .tnargs c ts, env, a, env', hca, henv, hu => by
    simp only [unify] at hu
    split at hu
    · rename_i hEq
      rw [← hEq] at hca
      simp [isConcrete] at hca
    · cases hu

/-- `bindAll` against concrete argument types: environment extension,
concreteness of bindings, and every variable of every declared parameter
bound. -/
theorem bindAll_props :
    ∀ (pairs : List (Ty × Ty)) (env : List (String × Ty)) (pos : Nat)
      (env' : List (String × Ty)),
      (∀ pr ∈ pairs, isConcrete pr.2 = true) →
      (∀ m t, envFind env m = some t → isConcrete t = true) →
      bindAll env pos pairs = .ok env' →
      ((∀ m t, envFind env m = some t → envFind env' m = some t)
      ∧ (∀ m t, envFind env' m = some t → isConcrete t = true)
      ∧ (∀ pr ∈ pairs, ∀ x ∈ tyVars pr.1,
          ∃ t, envFind env' x = some t ∧ isConcrete t = true))
  | [], env, _, env', _, henv, h => by
    cases h
    exact ⟨fun _ _ hm => hm, henv, fun pr hpr => absurd hpr (List.not_mem_nil pr)⟩
  | (p, a) :: rest, env, pos, env', hconc, henv, h => by
    simp only [bindAll] at h
    cases hu : unify env p a with
    | none => rw [hu] at h; cases h
    | some env1 =>
      rw [hu] at h
      have h1 := unify_props p env a env1 (hconc (p, a) (by simp)) henv hu
      have h2 := bindAll_props rest env1 (pos + 1) env'
        (fun pr hpr => hconc pr (by simp [hpr])) h1.2.1 h
      refine ⟨fun m t hm => h2.1 m t (h1.1 m t hm), h2.2.1, ?_⟩
      intro pr hpr x hx
      rcases List.mem_cons.mp hpr with h3 | h3
      · subst h3
        obtain ⟨t, ht, hct⟩ := h1.2.2 x hx
        exact ⟨t, h2.1 x t ht, hct⟩
      · exact h2.2.2 pr h3 x hx

/-- Substitution resolves a plain declared type whose variables are all
bound to concrete types. -/
theorem applySubst_concrete :
    ∀ (t : Ty) (env : List (String × Ty)),
      isPlain t = true →
      (∀ x ∈ tyVars t, ∃ u, envFind env x = some u ∧ isConcrete u = true) →
      isConcrete (applySubst env t) = true
  | .tvar nm, env, _, hb => by
    obtain ⟨u, hu, hcu⟩ := hb nm (by simp [tyVars])
    simp [applySubst, hu, hcu]
  | .tarray it n, env, hp, hb => by
    simp only [isPlain] at hp
    have := applySubst_concrete it env hp
      (fun x hx => hb x (by simpa [tyVars] using hx))
    simp [applySubst, isConcrete, this]
  | .tlambda _ _, _, hp, _ => by simp [isPlain] at hp
  | .tnargs _ _, _, hp, _ => by simp [isPlain] at hp
  | .tnull, _, _, _ => rfl
  | .tstring, _, _, _ => rfl
  | .tnumber, _, _, _ => rfl
  | .tboolean, _, _, _ => rfl
  | .tobject, _, _, _ => rfl
  | .tcolor, _, _, _ => rfl
  | .tvalue, _, _, _ => rfl

theorem mem_zip_left :
    ∀ (ps as_ : List Ty) (p : Ty), ps.length ≤ as_.length → p ∈ ps →
      ∃ a, (p, a) ∈ ps.zip as_
  | [], _, p, _, hp => absurd hp (List.not_mem_nil p)
  | _ :: _, [], _, hl, _ => by simp at hl
  | p0 :: ps, a0 :: as_, p, hl, hp => by
    rcases List.mem_cons.mp hp with h | h
    · exact ⟨a0, by simp [h]⟩
    · obtain ⟨a, ha⟩ := mem_zip_left ps as_ p (by simpa using Nat.le_of_succ_le_succ hl) h
      exact ⟨a, by simp [ha]⟩

theorem tyVarsList_mem :
    ∀ (ps : List Ty) (x : String), x ∈ tyVarsList ps → ∃ p ∈ ps, x ∈ tyVars p
  | [], x, h => absurd h (by simp [tyVarsList] at h ⊢)
  | p :: ps, x, h => by
    simp only [tyVarsList, List.mem_append] at h
    rcases h with h | h
    · exact ⟨p, by simp, h⟩
    · obtain ⟨q, hq, hx⟩ := tyVarsList_mem ps x h
      exact ⟨q, by simp [hq], hx⟩

theorem mem_tyVarsList :
    ∀ (ps : List Ty) (p : Ty), p ∈ ps → ∀ x ∈ tyVars p, x ∈ tyVarsList ps
  | [], p, hp, _, _ => absurd hp (List.not_mem_nil p)
  | q :: ps, p, hp, x, hx => by
    simp only [tyVarsList, List.mem_append]
    rcases List.mem_cons.mp hp with h | h
    · exact Or.inl (h ▸ hx)
    · exact Or.inr (mem_tyVarsList ps p h x hx)

theorem tyVarsList_append (xs ys : List Ty) :
    tyVarsList (xs ++ ys) = tyVarsList xs ++ tyVarsList ys := by
  induction xs with
  | nil => simp [tyVarsList]
  | cons t ts ih => simp [tyVarsList, ih]

theorem splitAtNargs_eq (ps : List Ty) :
    ∀ (front : List Ty) (c : Option Nat) (seq tail : List Ty),
      splitAtNargs ps = some (front, c, seq, tail) →
      ps = front ++ Ty.tnargs c seq :: tail := by
  induction ps with
  | nil => intro front c seq tail h; cases h
  | cons p rest ih =>
    intro front c seq tail h
    cases p
    case tnargs c0 seq0 =>
      simp only [splitAtNargs] at h
      cases h
      rfl
    all_goals
      (simp only [splitAtNargs] at h
       cases hs : splitAtNargs rest with
       | none => rw [hs] at h; cases h
       | some q =>
         obtain ⟨front2, c2, seq2, tail2⟩ := q
         rw [hs] at h
         cases h
         rw [ih front2 c seq tail hs]
         rfl)

theorem cycleList_length (seq : List Ty) (k : Nat) : (cycleList seq k).length = k := by
  simp [cycleList]

theorem mem_cycleList (seq : List Ty) (k : Nat) (hk : seq.length ≤ k) (s : Ty)
    (hs : s ∈ seq) : s ∈ cycleList seq k := by
  obtain ⟨i, hi, hgi⟩ := List.mem_iff_getElem.mp hs
  have hik : i < k := Nat.lt_of_lt_of_le hi hk
  have : seq.getD (i % seq.length) .tvalue = s := by
    rw [Nat.mod_eq_of_lt hi, List.getD_eq_getElem seq .tvalue hi, hgi]
  exact List.mem_map.mpr ⟨i, List.mem_range.mpr hik, this⟩

/-- A successful `checkApplication` of a well-formed signature against
concrete argument types yields a concrete resolved type. -/
theorem checkApplication_concrete (sig : Ty) (argTys : List Ty) (rt : Ty)
    (hwf : sigWf sig = true)
    (hconc : ∀ t ∈ argTys, isConcrete t = true)
    (h : checkApplication sig argTys = .ok rt) :
    isConcrete rt = true := by
  cases sig
  case tlambda result params =>
    simp only [sigWf, Bool.and_eq_true, List.all_eq_true] at hwf
    have hresP : isPlain result = true := hwf.1
    have hresV : ∀ n ∈ tyVars result, n ∈ tyVarsList params := by
      intro n hn
      exact of_decide_eq_true (hwf.2 n hn)
    simp only [checkApplication] at h
    cases hsp : splitAtNargs params with
    | none =>
      simp only [hsp] at h
      split at h
      · rename_i hlen
        cases hb : bindAll [] 0 (params.zip argTys) with
        | error e => rw [hb] at h; cases h
        | ok env =>
          rw [hb] at h
          cases h
          have hb2 := bindAll_props (params.zip argTys) [] 0 env
            (fun pr hpr => hconc pr.2 (List.of_mem_zip hpr).2)
            (fun m t hm => by simp [envFind] at hm)
            hb
          apply applySubst_concrete result env hresP
          intro x hx
          obtain ⟨p, hp, hxp⟩ := tyVarsList_mem params x (hresV x hx)
          obtain ⟨a, hpa⟩ := mem_zip_left params argTys p (by omega) hp
          exact hb2.2.2 (p, a) hpa x hxp
      · cases h
    | some q =>
      obtain ⟨front, c, seq, tail⟩ := q
      simp only [hsp] at h
      split at h
      · cases h
      · rename_i hcond
        simp only [Bool.or_eq_true, not_or, Bool.not_eq_true, decide_eq_false_iff_not,
          Nat.not_lt, bne_eq_false_iff_eq] at hcond
        cases hb : bindAll [] 0
            ((front ++ cycleList seq (argTys.length - (front.length + tail.length)) ++ tail).zip
              argTys) with
        | error e =>
          rw [hb] at h
          cases h
        | ok env =>
          rw [hb] at h
          cases h
          have hb2 := bindAll_props _ [] 0 env
            (fun pr hpr => hconc pr.2 (List.of_mem_zip hpr).2)
            (fun m t hm => by simp [envFind] at hm)
            hb
          apply applySubst_concrete result env hresP
          intro x hx
          obtain ⟨p, hp, hxp⟩ := tyVarsList_mem params x (hresV x hx)
          have hparams := splitAtNargs_eq params front c seq tail hsp
          have hk : seq.length ≤ argTys.length - (front.length + tail.length) := by
            have h1 := hcond.1.1
            omega
          have hp' : ∃ p' ∈ front ++ cycleList seq (argTys.length - (front.length + tail.length)) ++ tail,
              x ∈ tyVars p' := by
            rw [hparams] at hp
            rcases List.mem_append.mp hp with h1 | h1
            · exact ⟨p, by simp [h1], hxp⟩
            · rcases List.mem_cons.mp h1 with h2 | h2
              · subst h2
                simp only [tyVars] at hxp
                obtain ⟨s, hsseq, hxs⟩ := tyVarsList_mem seq x hxp
                exact ⟨s, by
                  simp only [List.mem_append]
                  exact Or.inl (Or.inr (mem_cycleList seq _ hk s hsseq)), hxs⟩
              · exact ⟨p, by simp [h2], hxp⟩
          obtain ⟨p', hp'mem, hxp'⟩ := hp'
          have hlen : (front ++ cycleList seq (argTys.length - (front.length + tail.length)) ++ tail).length
              ≤ argTys.length := by
            simp only [List.length_append, cycleList_length]
            have h1 := hcond.1.1
            omega
          obtain ⟨a, hpa⟩ := mem_zip_left _ argTys p' hlen hp'mem
          exact hb2.2.2 (p', a) hpa x hxp'
  all_goals simp [sigWf] at hwf

theorem primitiveTypeOf_concrete :
    ∀ (v : Value) (t : Ty), primitiveTypeOf v = some t → isConcrete t = true
  | .vstr _, _, h => by cases h; rfl
  | .vnum _, _, h => by cases h; rfl
  | .vbool _, _, h => by cases h; rfl
  | .vnull, _, h => by cases h
  | .varr _, _, h => by cases h
  | .vobj _, _, h => by cases h
  | .vcolor _ _ _ _, _, h => by cases h

theorem inferItemType_concrete :
    ∀ (vs : List Value) (it : Option Ty),
      (∀ t, it = some t → isConcrete t = true) →
      ∀ u, inferItemType it vs = some u → isConcrete u = true
  | [], _, hit, u, h => hit u h
  | v :: rest, it, hit, u, h => by
    simp only [inferItemType] at h
    cases hp : primitiveTypeOf v with
    | none => simp only [hp] at h; cases h; rfl
    | some t =>
      cases it with
      | none =>
        simp only [hp] at h
        exact inferItemType_concrete rest (some t)
          (fun t' ht' => by cases ht'; exact primitiveTypeOf_concrete v t hp) u h
      | some t0 =>
        simp only [hp] at h
        split at h
        · exact inferItemType_concrete rest (some t0) hit u h
        · cases h; rfl

theorem typeOf_concrete : ∀ (v : Value), isConcrete (typeOf v) = true
  | .vnull => rfl
  | .vbool _ => rfl
  | .vnum _ => rfl
  | .vstr _ => rfl
  | .vobj _ => rfl
  | .vcolor _ _ _ _ => rfl
  | .varr xs => by
    simp only [typeOf, inferArrayType, isConcrete]
    cases hi : inferItemType none xs with
    | none => rfl
    | some u =>
      simp only [Option.getD_some]
      exact inferItemType_concrete xs none (fun t ht => by cases ht) u hi

theorem litParse_wf :
    ∀ (args : List Value) (ctx : Ctx) (node : Expr),
      litParse args ctx = .ok node → wfExpr node = true
  | [a], ctx, node, h => by
    simp only [litParse] at h
    cases h
    simpa [wfExpr] using typeOf_concrete a
  | [], _, _, h => by simp only [litParse] at h; cases h
  | _ :: _ :: _, _, _, h => by simp only [litParse] at h; cases h

theorem defsWfSigs_lookup :
    ∀ (defs : List (String × OpDef)), defsWfSigs defs = true →
      ∀ (k : String) (d : OpDef), lookupDef defs k = some d →
      ∀ sig, d.kind = .defaultK sig → sigWf sig = true
  | [], _, k, d, h => by cases h
  | (k0, d0) :: rest, hwf, k, d, h => by
    simp only [defsWfSigs, Bool.and_eq_true] at hwf
    simp only [lookupDef] at h
    split at h
    · cases h
      intro sig hsig
      have := hwf.1
      rw [hsig] at this
      exact this
    · exact defsWfSigs_lookup rest hwf.2 k d h

theorem parseArgsF_wf (p : Value → Ctx → Except ParsingError Expr)
    (hp : ∀ x c y, p x c = .ok y → wfExpr y = true) (op : String) (ctx : Ctx) :
    ∀ (idx : Nat) (xs : List Value) (es : List Expr),
      parseArgsF p op ctx idx xs = .ok es → wfExprList es = true
  | _, [], es, h => by
    simp only [parseArgsF] at h
    cases h
    rfl
  | idx, a :: rest, es, h => by
    simp only [parseArgsF, Bind.bind, Except.bind] at h
    cases he : p a (ctx.concat idx (some op)) with
    | error e => rw [he] at h; cases h
    | ok e =>
      rw [he] at h
      cases hr : parseArgsF p op ctx (idx + 1) rest with
      | error e2 => rw [hr] at h; cases h
      | ok es2 =>
        rw [hr] at h
        cases h
        simp [wfExprList, hp a _ e he, parseArgsF_wf p hp op ctx (idx + 1) rest es2 hr]

/-- Inversion of a successful `MatchExpression.parse`. -/
theorem matchParseF_ok_inv (p : Value → Ctx → Except ParsingError Expr)
    (args : List Value) (ctx : Ctx) (node : Expr)
    (h : matchParseF p args ctx = .ok node) :
    ∃ (a0 b : Value) (rest2 nm : List Value) (pargs : List Expr),
      args = a0 :: b :: rest2
      ∧ normalizeMid ctx.key 1 ((b :: rest2).dropLast) = .ok nm
      ∧ parseArgsF p "match" ctx 1 (a0 :: (nm ++ [(b :: rest2).getLast (by simp)])) = .ok pargs
      ∧ node = .lam ctx.key "match" matchSig pargs := by
  match args with
  | [] => cases h
  | [_] => cases h
  | a0 :: b :: rest2 =>
    simp only [matchParseF, Bind.bind, Except.bind] at h
    cases hn : normalizeMid ctx.key 1 ((b :: rest2).dropLast) with
    | error e => simp only [hn] at h; exact Except.noConfusion h
    | ok nm =>
      simp only [hn] at h
      cases hpa : parseArgsF p "match" ctx 1 (a0 :: (nm ++ [(b :: rest2).getLast (by simp)])) with
      | error e => simp only [hpa] at h; exact Except.noConfusion h
      | ok pargs =>
        simp only [hpa] at h
        cases h
        exact ⟨a0, b, rest2, nm, pargs, rfl, hn, hpa, rfl⟩

/-- Parsing with a wellformed-signature registry yields wellformed trees. -/
theorem parse_wf (defs : List (String × OpDef)) (hwf : defsWfSigs defs = true) :
    ∀ (n : Nat) (e : Value) (ctx : Ctx) (node : Expr),
      parseFuel defs n e ctx = .ok node → wfExpr node = true := by
  intro n
  induction n with
  | zero => intro e ctx node h; cases h
  | succ m ih =>
    intro e ctx node h
    match e with
    | .vnull => cases h; rfl
    | .vstr s => cases h; rfl
    | .vbool b => cases h; rfl
    | .vnum k => cases h; rfl
    | .vobj _ => cases h
    | .vcolor _ _ _ _ => cases h
    | .varr xs =>
      match xs with
      | [] => cases h
      | op :: rest =>
        match op with
        | .vbool _ => cases h
        | .vnum _ => cases h
        | .vnull => cases h
        | .varr _ => cases h
        | .vobj _ => cases h
        | .vcolor _ _ _ _ => cases h
        | .vstr opName =>
          simp only [parseFuel] at h
          by_cases hlit : opName = "literal"
          · rw [if_pos hlit] at h
            exact litParse_wf rest ctx node h
          · rw [if_neg hlit] at h
            cases hd : lookupDef defs opName with
            | none => simp only [hd] at h; exact Except.noConfusion h
            | some d =>
              simp only [hd] at h
              cases hk : d.kind with
              | defaultK sig =>
                simp only [hk, Bind.bind, Except.bind] at h
                cases hpa : parseArgsF (parseFuel defs m) d.name ctx 1 rest with
                | error e2 => rw [hpa] at h; cases h
                | ok pargs =>
                  rw [hpa] at h
                  cases h
                  have hsig := defsWfSigs_lookup defs hwf opName d hd sig hk
                  have hargs := parseArgsF_wf (parseFuel defs m)
                    (fun x c y hy => ih x c y hy) d.name ctx 1 rest pargs hpa
                  simp [wfExpr, hsig, hargs]
              | matchK =>
                simp only [hk] at h
                obtain ⟨a0, b, rest2, nm, pargs, -, -, hpa, hnode⟩ :=
                  matchParseF_ok_inv (parseFuel defs m) rest ctx node h
                subst hnode
                have hargs := parseArgsF_wf (parseFuel defs m)
                  (fun x c y hy => ih x c y hy) "match" ctx 1 _ pargs hpa
                have hsig : sigWf matchSig = true := by decide
                simp [wfExpr, hsig, hargs]

theorem resolved_type_concrete :
    ∀ (e : Expr), allResolved e = true → isConcrete e.type = true
  | .lit _ t _, h => by simpa [allResolved, Expr.type] using h
  | .lam _ _ t _, h => by
    simp only [allResolved, Bool.and_eq_true] at h
    simpa [Expr.type] using h.1

theorem resolved_types_concrete :
    ∀ (cs : List Expr), allResolvedList cs = true →
      ∀ t ∈ cs.map Expr.type, isConcrete t = true
  | [], _, t, ht => absurd ht (by simp)
  | c :: cs, h, t, ht => by
    simp only [allResolvedList, Bool.and_eq_true] at h
    simp only [List.map_cons, List.mem_cons] at ht
    rcases ht with h2 | h2
    · rw [h2]
      exact resolved_type_concrete c h.1
    · exact resolved_types_concrete cs h.2 t h2

mutual

theorem tc_resolves :
    ∀ (e : Expr), wfExpr e = true → ∀ e', typecheckExpr e = .ok e' → allResolved e' = true
  | .lit k t v => fun hwf e' ht => by
    simp only [typecheckExpr] at ht
    cases ht
    simpa [wfExpr, allResolved] using hwf
  | .lam k op sig args => fun hwf e' ht => by
    simp only [wfExpr, Bool.and_eq_true] at hwf
    simp only [typecheckExpr] at ht
    cases hl : typecheckList args with
    | error e2 => simp only [hl] at ht; exact Except.noConfusion ht
    | ok cargs =>
      simp only [hl] at ht
      have hres := tcList_resolves args hwf.2 cargs hl
      cases hca : checkApplication sig (cargs.map Expr.type) with
      | error e2 => simp only [hca] at ht; exact Except.noConfusion ht
      | ok rt =>
        simp only [hca] at ht
        cases ht
        have hrt := checkApplication_concrete sig (cargs.map Expr.type) rt hwf.1
          (resolved_types_concrete cargs hres) hca
        simp [allResolved, hrt, hres]

theorem tcList_resolves :
    ∀ (as_ : List Expr), wfExprList as_ = true →
      ∀ cs, typecheckList as_ = .ok cs → allResolvedList cs = true
  | [] => fun _ cs h => by
    simp only [typecheckList] at h
    cases h
    rfl
  | a :: rest => fun hwf cs h => by
    simp only [wfExprList, Bool.and_eq_true] at hwf
    simp only [typecheckList] at h
    cases ha : typecheckExpr a with
    | error e => simp only [ha] at h; exact Except.noConfusion h
    | ok a' =>
      simp only [ha] at h
      cases hr : typecheckList rest with
      | error e => simp only [hr] at h; exact Except.noConfusion h
      | ok cs2 =>
        simp only [hr] at h
        cases h
        simp [allResolvedList, tc_resolves a hwf.1 a' ha, tcList_resolves rest hwf.2 cs2 hr]

end

/-- C2: with every registry signature well-formed, any successfully parsed
and type-checked tree is fully resolved: every node (the operator nodes in
particular) stores a concrete data type — the post-generic-binding result
type with all type variables substituted — and never a raw generic lambda
signature. -/
theorem claim_c2 (defs : List (String × OpDef)) (n : Nat) (e : Value) (ctx : Ctx)
    (node node' : Expr)
    (hwf : defsWfSigs defs = true)
    (hp : parseFuel defs n e ctx = .ok node)
    (ht : typecheckExpr node = .ok node') :
    allResolved node' = true :=
  tc_resolves node (parse_wf defs hwf n e ctx node hp) node' ht

/-- C2 witness: `["match", 0, [1], "a", "fb"]` parses, type-checks with
`T := String` and `U := Number`, and the checked tree is fully resolved —
the match node stores the concrete String result type, not its generic
`lambda(T, U, nargs(∞, array(U), T), T)` declaration. -/
theorem claim_c2_witness :
    allResolved (.lam "" "match" .tstring
      [.lit "1" .tnumber (.vnum 0),
       .lit "2" (.tarray .tnumber (some 1)) (.varr [.vnum 1]),
       .lit "3" .tstring (.vstr "a"),
       .lit "4" .tstring (.vstr "fb")]) = true :=
  claim_c2 defsM 5 (.varr [.vstr "match", .vnum 0, .varr [.vnum 1], .vstr "a", .vstr "fb"]) ctx0
    (.lam "" "match" matchSig
      [.lit "1" .tnumber (.vnum 0),
       .lit "2" (.tarray .tnumber (some 1)) (.varr [.vnum 1]),
       .lit "3" .tstring (.vstr "a"),
       .lit "4" .tstring (.vstr "fb")])
    (.lam "" "match" .tstring
      [.lit "1" .tnumber (.vnum 0),
       .lit "2" (.tarray .tnumber (some 1)) (.varr [.vnum 1]),
       .lit "3" .tstring (.vstr "a"),
       .lit "4" .tstring (.vstr "fb")])
    (by decide) rfl rfl

/-! ## Serialization round-trip (C5) -/

theorem str_append_empty (s : String) : s ++ "" = s := by
  cases s
  simp [String.append]

theorem defsWfNames_lookup :
    ∀ (defs : List (String × OpDef)), defsWfNames defs = true →
      ∀ (k : String) (d : OpDef), lookupDef defs k = some d → d.name = k
  | [], _, k, d, h => by cases h
  | (k0, d0) :: rest, hwf, k, d, h => by
    simp only [defsWfNames, Bool.and_eq_true, beq_iff_eq] at hwf
    simp only [lookupDef] at h
    split at h
    · cases h
      rename_i hk0
      rw [hwf.1, hk0]
    · exact defsWfNames_lookup rest hwf.2 k d h

/-- Serializing a parsed `["literal", ...]` form gives its normal form. -/
theorem litParse_serialize (defs : List (String × OpDef)) (n : Nat) :
    ∀ (rest : List Value) (ctx : Ctx) (node : Expr),
      litParse rest ctx = .ok node →
      serialize false node = normFuel defs (n + 1) (.varr (.vstr "literal" :: rest))
  | [a], ctx, node, h => by
    simp only [litParse] at h
    cases h
    simp [serialize, normFuel]
  | [], _, _, h => by simp only [litParse] at h; cases h
  | _ :: _ :: _, _, _, h => by simp only [litParse] at h; cases h

theorem parseArgsF_serialize (nf : Value → Value)
    (p : Value → Ctx → Except ParsingError Expr)
    (hp : ∀ x c y, p x c = .ok y → serialize false y = nf x)
    (op : String) (ctx : Ctx) :
    ∀ (idx : Nat) (xs : List Value) (es : List Expr),
      parseArgsF p op ctx idx xs = .ok es →
      serializeList false es = normListG nf xs
  | _, [], es, h => by
    simp only [parseArgsF] at h
    cases h
    rfl
  | idx, a :: rest, es, h => by
    simp only [parseArgsF, Bind.bind, Except.bind] at h
    cases he : p a (ctx.concat idx (some op)) with
    | error e => rw [he] at h; cases h
    | ok e =>
      rw [he] at h
      cases hr : parseArgsF p op ctx (idx + 1) rest with
      | error e2 => rw [hr] at h; cases h
      | ok es2 =>
        rw [hr] at h
        cases h
        simp [serializeList, normListG, hp a _ e he,
          parseArgsF_serialize nf p hp op ctx (idx + 1) rest es2 hr]

theorem normalizeMid_cons_odd (key : String) (i : Nat) (a : Value) (mid2 nm : List Value)
    (hodd : i % 2 = 1) (h : normalizeMid key i (a :: mid2) = .ok nm) :
    ∃ nm2, normalizeMid key (i + 1) mid2 = .ok nm2
      ∧ nm = .varr [.vstr "literal", .varr (toGroup a)] :: nm2 := by
  simp only [normalizeMid, hodd, if_pos, Bind.bind, Except.bind] at h
  split at h
  · exact Except.noConfusion h
  · cases hc : checkGroup key i 0 (toGroup a) with
    | error e => rw [hc] at h; exact Except.noConfusion h
    | ok u =>
      simp only [hc] at h
      cases hn2 : normalizeMid key (i + 1) mid2 with
      | error e => simp only [hn2] at h; exact Except.noConfusion h
      | ok nm2 =>
        simp only [hn2] at h
        cases h
        exact ⟨nm2, rfl, rfl⟩

theorem normalizeMid_cons_even (key : String) (i : Nat) (a : Value) (mid2 nm : List Value)
    (heven : ¬ i % 2 = 1) (h : normalizeMid key i (a :: mid2) = .ok nm) :
    ∃ nm2, normalizeMid key (i + 1) mid2 = .ok nm2 ∧ nm = a :: nm2 := by
  simp only [normalizeMid, heven, if_neg, Bind.bind, Except.bind] at h
  cases hn2 : normalizeMid key (i + 1) mid2 with
  | error e => simp only [hn2] at h; exact Except.noConfusion h
  | ok nm2 =>
    simp only [hn2] at h
    cases h
    exact ⟨nm2, rfl, rfl⟩

/-- The normal forms of the normalized match arguments (the wrapped label
sets followed by the untouched fallback) are exactly `normMidG` of the
original trailing arguments, for any element normalizer fixing the wrapped
label-set literals. -/
theorem normList_normalized (nf : Value → Value)
    (hwrap : ∀ g, nf (.varr [.vstr "literal", .varr g]) = .varr [.vstr "literal", .varr g]) :
    ∀ (ms : List Value) (hne : ms ≠ []) (i : Nat) (key : String) (nm : List Value),
      normalizeMid key i ms.dropLast = .ok nm →
      normListG nf (nm ++ [ms.getLast hne]) = normMidG nf i ms
  | [], hne, _, _, _, _ => absurd rfl hne
  | [a], _, i, key, nm, h => by
    simp only [List.dropLast_single, normalizeMid] at h
    cases h
    simp [normListG, normMidG]
  | a :: b :: rest, _, i, key, nm, h => by
    have hdl : (a :: b :: rest).dropLast = a :: (b :: rest).dropLast := by simp
    rw [hdl] at h
    by_cases hodd : i % 2 = 1
    · obtain ⟨nm2, hn2, rfl⟩ := normalizeMid_cons_odd key i a _ nm hodd h
      have ih := normList_normalized nf hwrap (b :: rest) (by simp) (i + 1) key nm2 hn2
      rw [List.getLast_cons (by simp)]
      simp [normListG, normMidG, hodd, ih, hwrap]
    · obtain ⟨nm2, hn2, rfl⟩ := normalizeMid_cons_even key i a _ nm hodd h
      have ih := normList_normalized nf hwrap (b :: rest) (by simp) (i + 1) key nm2 hn2
      rw [List.getLast_cons (by simp)]
      simp [normListG, normMidG, hodd, ih]

/-- At every fuel level, serializing a successfully parsed expression
(without type annotations) gives the source normal form at that fuel. -/
theorem serialize_parseFuel (defs : List (String × OpDef))
    (hnames : defsWfNames defs = true) :
    ∀ (n : Nat) (e : Value) (ctx : Ctx) (node : Expr),
      parseFuel defs n e ctx = .ok node → serialize false node = normFuel defs n e := by
  intro n
  induction n with
  | zero => intro e ctx node h; cases h
  | succ m ih =>
    intro e ctx node h
    match e with
    | .vnull => cases h; rfl
    | .vstr s => cases h; rfl
    | .vbool b => cases h; rfl
    | .vnum k => cases h; rfl
    | .vobj _ => cases h
    | .vcolor _ _ _ _ => cases h
    | .varr xs =>
      match xs with
      | [] => cases h
      | op :: rest =>
        match op with
        | .vbool _ => cases h
        | .vnum _ => cases h
        | .vnull => cases h
        | .varr _ => cases h
        | .vobj _ => cases h
        | .vcolor _ _ _ _ => cases h
        | .vstr opName =>
          simp only [parseFuel] at h
          by_cases hlit : opName = "literal"
          · subst hlit
            rw [if_pos rfl] at h
            exact litParse_serialize defs m rest ctx node h
          · rw [if_neg hlit] at h
            cases hd : lookupDef defs opName with
            | none => simp only [hd] at h; exact Except.noConfusion h
            | some d =>
              simp only [hd] at h
              have hname : d.name = opName := defsWfNames_lookup defs hnames opName d hd
              cases hk : d.kind with
              | defaultK sig =>
                simp only [hk, Bind.bind, Except.bind] at h
                cases hpa : parseArgsF (parseFuel defs m) d.name ctx 1 rest with
                | error e2 => simp only [hpa] at h; exact Except.noConfusion h
                | ok pargs =>
                  simp only [hpa] at h
                  cases h
                  have hser := parseArgsF_serialize (normFuel defs m) (parseFuel defs m)
                    (fun x c y hy => ih x c y hy) d.name ctx 1 rest pargs hpa
                  simp only [serialize, serializeList, hser, hname, str_append_empty]
                  simp [normFuel, hlit, hd, hk]
              | matchK =>
                simp only [hk] at h
                obtain ⟨a0, b, rest2, nm, pargs, hrest, hn, hpa, hnode⟩ :=
                  matchParseF_ok_inv (parseFuel defs m) rest ctx node h
                subst hnode
                have hser := parseArgsF_serialize (normFuel defs m) (parseFuel defs m)
                  (fun x c y hy => ih x c y hy) "match" ctx 1 _ pargs hpa
                subst hrest
                have hwrap : ∀ g, normFuel defs m (.varr [.vstr "literal", .varr g])
                    = .varr [.vstr "literal", .varr g] := by
                  intro g
                  cases m with
                  | zero => rfl
                  | succ m2 => rfl
                have hmid := normList_normalized (normFuel defs m) hwrap
                  (b :: rest2) (by simp) 1 ctx.key nm hn
                simp only [normListG] at hser
                simp only [serialize, serializeList, hser, str_append_empty, hmid]
                simp [normFuel, hlit, hd, hk]

/-- C5 (amended): serialization inverts parsing up to the source normal form
`normExpr` — i.e. exactly up to (a) each match label set being replaced by
its wrapped `["literal", [labels]]` form (a bare scalar label promoted to a
one-element array first), and (b) a `["literal", v]` wrapper around a
primitive scalar being dropped in favour of the bare scalar (and the
documented Color-to-rgba form for Color literal values); on every other
accepted form, serializing the parsed AST without type annotations
reproduces the source exactly, provided each registry entry is keyed by its
own operator name. -/
theorem claim_c5 (defs : List (String × OpDef)) (hnames : defsWfNames defs = true)
    (e : Value) (ctx : Ctx) (node : Expr)
    (h : parseExpression defs e ctx = .ok node) :
    serialize false node = normExpr defs e :=
  serialize_parseFuel defs hnames (fuelFor e) e ctx node h

/-- C5 counterexample: `["literal", 5]` is accepted by the parser, but
serializes back to the bare scalar `5`, not to `["literal", 5]` — a failure
of exact round-tripping that is neither the Color-to-rgba case nor a scalar
match label promoted to a one-element array. -/
theorem claim_c5_counterexample :
    parseExpression defsM (.varr [.vstr "literal", .vnum 5]) ctx0
      = .ok (.lit "" .tnumber (.vnum 5))
    ∧ serialize false (.lit "" .tnumber (.vnum 5)) = .vnum 5
    ∧ Value.vnum 5 ≠ .varr [.vstr "literal", .vnum 5] := by
  refine ⟨rfl, rfl, ?_⟩
  intro hc
  cases hc

/-- C5 witness: the amended round-trip evaluated on
`["match", 0, 1, "a", "fb"]` — serializing the parse result equals the
normal form, in which the scalar label `1` has become `["literal", [1]]`
while everything else round-trips unchanged. -/
theorem claim_c5_witness :
    (parseExpression defsM (.varr [.vstr "match", .vnum 0, .vnum 1, .vstr "a", .vstr "fb"])
        ctx0).map (serialize false)
      = .ok (normExpr defsM (.varr [.vstr "match", .vnum 0, .vnum 1, .vstr "a", .vstr "fb"]))
    ∧ normExpr defsM (.varr [.vstr "match", .vnum 0, .vnum 1, .vstr "a", .vstr "fb"])
      = .varr [.vstr "match", .vnum 0, .varr [.vstr "literal", .varr [.vnum 1]],
          .vstr "a", .vstr "fb"] := by
  constructor
  · have h := claim_c5 defsM (by decide)
      (.varr [.vstr "match", .vnum 0, .vnum 1, .vstr "a", .vstr "fb"]) ctx0
      (.lam "" "match" matchSig
        [.lit "1" .tnumber (.vnum 0),
         .lit "2" (.tarray .tnumber (some 1)) (.varr [.vnum 1]),
         .lit "3" .tstring (.vstr "a"),
         .lit "4" .tstring (.vstr "fb")]) rfl
    rw [show parseExpression defsM
          (.varr [.vstr "match", .vnum 0, .vnum 1, .vstr "a", .vstr "fb"]) ctx0
        = .ok (.lam "" "match" matchSig
          [.lit "1" .tnumber (.vnum 0),
           .lit "2" (.tarray .tnumber (some 1)) (.varr [.vnum 1]),
           .lit "3" .tstring (.vstr "a"),
           .lit "4" .tstring (.vstr "fb")]) from rfl]
    simp only [Except.map]
    rw [h]
  · rfl

end StyleExpr
